import Mathlib

/-!
Verification of the deduplino core (`src/index.ts` deduplicator) against its
natural-language specification.

The TypeScript source is embedded shallowly:
* lino `Link` trees become the inductive `Link`;
* JavaScript strings become Lean `String`s, with the JS string operations
  (`split(/\s+/)`, `split(' ')`, `join`, `substring`, `trim`, …) implemented
  character-wise so that they compute by kernel reduction;
* JS `Map`/`Set` (whose iteration order is insertion order) become
  association lists with update-in-place / append-if-new operations;
* the external lino parser is an explicit function parameter
  `parse : String → Option (List Link)`; the external formatter is modelled
  from the spec (see `specFormatLinks`);
* `number` percentages become `ℚ`; `Math.ceil` becomes `Int.ceil` on `ℚ`.
-/

/-! ## Character and string utilities (JS string primitives) -/

def notWs (c : Char) : Bool := !c.isWhitespace

/-- JS `s.split(/\s+/)` over a character list: maximal whitespace runs are
separators; a leading/trailing run yields an empty first/last piece; the empty
string yields `[""]`.  `acc` is the current token (reversed), `lastWs` records
whether the previous character was part of a whitespace run being skipped. -/
def splitWsGo : List Char → List Char → Bool → List (List Char)
  | [], acc, _ => [acc.reverse]
  | c :: cs, acc, lastWs =>
    if c.isWhitespace then
      if lastWs then splitWsGo cs acc true
      else acc.reverse :: splitWsGo cs [] true
    else splitWsGo cs (c :: acc) false

/-- JS `s.split(/\s+/)`. -/
def jsSplitWs (s : String) : List String :=
  (splitWsGo s.data [] false).map (fun cs => ⟨cs⟩)

/-- JS `s.split(sep)` for a single-character separator (used for `split(' ')`
and `split('\n')`): every occurrence separates, adjacent separators produce
empty pieces, the empty string yields `[""]`. -/
def splitSepGo (sep : Char) : List Char → List Char → List (List Char)
  | [], acc => [acc.reverse]
  | c :: cs, acc =>
    if c = sep then acc.reverse :: splitSepGo sep cs []
    else splitSepGo sep cs (c :: acc)

def jsSplitChar (sep : Char) (s : String) : List String :=
  (splitSepGo sep s.data [] ).map (fun cs => ⟨cs⟩)

/-- JS `array.join(sep)` at the character level. -/
def sepIntercalate (sep : Char) : List (List Char) → List Char
  | [] => []
  | [p] => p
  | p :: q :: ps => p ++ sep :: sepIntercalate sep (q :: ps)

/-- JS `array.join(sep)` for a one-character separator. -/
def joinSep (sep : Char) (parts : List String) : String :=
  ⟨sepIntercalate sep (parts.map String.data)⟩

/-- JS `s.trim()`. -/
def trimStr (s : String) : String :=
  ⟨((s.data.dropWhile Char.isWhitespace).reverse.dropWhile Char.isWhitespace).reverse⟩

/-- JS `s.substring(n)` (code-unit index modelled as character index). -/
def strDrop (s : String) (n : Nat) : String := ⟨s.data.drop n⟩

/-- JS `s.substring(0, n)`. -/
def strTake (s : String) (n : Nat) : String := ⟨s.data.take n⟩

/-- JS `s.length` (code units modelled as characters). -/
def strLen (s : String) : Nat := s.data.length

/-- Wrap a token in single quotes (JS `` `'${token}'` ``). -/
def quoteTok (s : String) : String := ⟨'\'' :: s.data ++ ['\'']⟩

/-! ## The lino `Link` data model (external parser's output shape) -/

/-- A lino link: an optional identifier plus a list of child links, as produced
by the external `@linksplatform/protocols-lino` parser. -/
inductive Link where
  | mk (id : Option String) (values : List Link)

def Link.id : Link → Option String
  | .mk i _ => i

def Link.values : Link → List Link
  | .mk _ vs => vs

mutual
def Link.beq : Link → Link → Bool
  | .mk i v, .mk j w => i == j && Link.beqList v w
def Link.beqList : List Link → List Link → Bool
  | [], [] => true
  | a :: as, b :: bs => Link.beq a b && Link.beqList as bs
  | _, _ => false
end

mutual
theorem Link.beq_iff : ∀ a b : Link, (Link.beq a b = true) ↔ a = b
  | .mk i v, .mk j w => by
    simp only [Link.beq, Bool.and_eq_true, beq_iff_eq, Link.mk.injEq]
    exact and_congr_right fun _ => Link.beqList_iff v w
theorem Link.beqList_iff : ∀ as bs : List Link, (Link.beqList as bs = true) ↔ as = bs
  | [], [] => by simp [Link.beqList]
  | [], _ :: _ => by simp [Link.beqList]
  | _ :: _, [] => by simp [Link.beqList]
  | a :: as, b :: bs => by
    simp only [Link.beqList, Bool.and_eq_true, List.cons.injEq]
    exact and_congr (Link.beq_iff a b) (Link.beqList_iff as bs)
end

instance : DecidableEq Link := fun a b => decidable_of_iff _ (Link.beq_iff a b)

instance : Inhabited Link := ⟨.mk none []⟩

/-- JS truthiness of `link.id` (`null` and `""` are falsy). -/
def isTruthy : Option String → Bool
  | some s => s ≠ ""
  | none => false

/- The recursive `flatten` helper of `linkToString`: push `l.id` when the id
is truthy and there are no children, otherwise recurse into the children. -/
mutual
def flattenLink : Link → List String
  | .mk i [] => if isTruthy i then [i.getD ""] else []
  | .mk _ (v :: vs) => flattenLink v ++ flattenLinks vs
def flattenLinks : List Link → List String
  | [] => []
  | v :: vs => flattenLink v ++ flattenLinks vs
end

/-- `linkToString` from `src/index.ts`: a simple link renders its id; a link
with children flattens them and joins the leaf ids with single spaces. -/
def linkToString (l : Link) : String :=
  match l with
  | .mk i [] => i.getD ""
  | .mk _ (v :: vs) => joinSep ' ' (flattenLinks (v :: vs))

/-! ## Patterns and pattern discovery (`findCommonPattern`, `findPatterns`) -/

/-- The `Pattern` record of `src/index.ts` (the `type` field is the string
discriminator `"exact"`, `"prefix"` or `"suffix"`, as in the source). -/
structure Pattern where
  type : String
  pattern : String
  items : List String
  count : Nat
deriving DecidableEq

instance : Inhabited Pattern := ⟨⟨"", "", [], 0⟩⟩

/-- `while (k < bound && p k) k++`, returning how many steps succeeded; the
first argument of the recursion is the remaining budget. -/
def whileCount (p : Nat → Bool) : Nat → Nat → Nat
  | 0, _ => 0
  | b + 1, k => if p k then whileCount p b (k + 1) + 1 else 0

/-- `findCommonPattern` from `src/index.ts`: longest run of positionally equal
tokens from the front (resp. back), strictly shorter than both operands, joined
with spaces; `null` when no token matches. -/
def findCommonPattern (references1 references2 : List String) (type : String) : Option String :=
  let len1 := references1.length
  let len2 := references2.length
  if type = "prefix" then
    let matchLen := whileCount
      (fun k => references1.getD k "" == references2.getD k "")
      (min (len1 - 1) (len2 - 1)) 0
    if 0 < matchLen then some (joinSep ' ' (references1.take matchLen)) else none
  else
    let matchLen := whileCount
      (fun k => references1.getD (len1 - 1 - k) "" == references2.getD (len2 - 1 - k) "")
      (min (len1 - 1) (len2 - 1)) 0
    if 0 < matchLen then some (joinSep ' ' (references1.drop (len1 - matchLen))) else none

/-! JS `Map`/`Set` iterate in insertion order; they are modelled as association
lists where updating an existing key keeps its position and a new key is
appended. -/

/-- `map.set(k, (map.get(k) ?? 0) + 1)` for a counting map. -/
def bump : List (String × Nat) → String → List (String × Nat)
  | [], k => [(k, 1)]
  | (k', n) :: rest, k => if k' = k then (k', n + 1) :: rest else (k', n) :: bump rest k

/-- `map.get(k)` for an association list. -/
def alookup {β : Type} : List (String × β) → String → Option β
  | [], _ => none
  | (k', v) :: rest, k => if k' = k then some v else alookup rest k

/-- `set.add(x)`: append if not yet present (insertion order preserved). -/
def osetAdd (s : List String) (x : String) : List String :=
  if x ∈ s then s else s ++ [x]

/-- `new Set(array)`: deduplicate keeping first occurrences. -/
def osetOfList (xs : List String) : List String := xs.foldl osetAdd []

/-- `if (!map.has(k)) map.set(k, new Set()); map.get(k).add(x)`. -/
def omapAdd : List (String × List String) → String → String → List (String × List String)
  | [], k, x => [(k, [x])]
  | (k', s) :: rest, k, x =>
    if k' = k then (k', osetAdd s x) :: rest else (k', s) :: omapAdd rest k x

/-- The `validLinks` filter: flattened content has at least two tokens. -/
def validLinks (links : List Link) : List Link :=
  links.filter (fun l => decide (2 ≤ (jsSplitWs (linkToString l)).length))

/-- The structured-link predicate: no id, more than one child, and the first
child itself has children. -/
def isStructuredB (l : Link) : Bool :=
  !isTruthy l.id && decide (1 < l.values.length) &&
    decide (0 < (l.values.headD default).values.length)

/-- `structuredLinks` from `findPatterns`. -/
def structuredLinks (links : List Link) : List Link :=
  (validLinks links).filter isStructuredB

/-- One step of the structured-duplicates loop: route a duplicated structured
content into the prefix map under the first child's flattened content. -/
def structStep (structured : List Link) (m : List (String × List String)) (c : String) :
    List (String × List String) :=
  let matching := structured.filter (fun l => linkToString l == c)
  if 2 ≤ matching.length ∧ 1 < (matching.headD default).values.length then
    let pk := linkToString ((matching.headD default).values.headD default)
    if pk = "" then m
    else matching.foldl (fun m' l => omapAdd m' pk (linkToString l)) m
  else m

/-- The ordered pairs `(i, j)` with `i < j < n`, in the double-loop order of
`findPatterns`. -/
def pairIdx (n : Nat) : List (Nat × Nat) :=
  (List.range n).foldr
    (fun i acc => (((List.range n).drop (i + 1)).map (fun j => (i, j))) ++ acc) []

/-- One step of the all-pairs loop: skip structured links and equal contents,
then record the common token run (when non-empty) in the prefix and suffix
maps under both contents. -/
def pairStep (valid structured : List Link)
    (ms : List (String × List String) × List (String × List String)) (ij : Nat × Nat) :
    List (String × List String) × List (String × List String) :=
  let li := valid.getD ij.1 default
  let lj := valid.getD ij.2 default
  if structured.contains li || structured.contains lj then ms
  else
    let content1 := linkToString li
    let content2 := linkToString lj
    if content1 = content2 then ms
    else
      let references1 := jsSplitWs content1
      let references2 := jsSplitWs content2
      let ms1 :=
        match findCommonPattern references1 references2 "prefix" with
        | some k => if k = "" then ms else (omapAdd (omapAdd ms.1 k content1) k content2, ms.2)
        | none => ms
      match findCommonPattern references1 references2 "suffix" with
      | some k => if k = "" then ms1 else (ms1.1, omapAdd (omapAdd ms1.2 k content1) k content2)
      | none => ms1

/-- `count` of a prefix/suffix pattern: total occurrences of its items among
the valid links. -/
def patCount (valid : List Link) (items : List String) : Nat :=
  items.foldl (fun s it => s + (valid.filter (fun l => linkToString l == it)).length) 0

/-- `addPatternsFromMap` from `findPatterns`. -/
def patternsFromMap (valid : List Link) (t : String) (m : List (String × List String)) :
    List Pattern :=
  m.filterMap (fun ks =>
    if 1 ≤ ks.2.length then some (⟨t, ks.1, ks.2, patCount valid ks.2⟩ : Pattern) else none)

/-- The exact-duplicate counting map of `findPatterns`. -/
def exactCounts (links : List Link) : List (String × Nat) :=
  (validLinks links).foldl (fun m l => bump m (linkToString l)) []

/-- `structuredDuplicates` from `findPatterns`: contents of structured links
whose total valid-entry count is at least 2, first occurrences first. -/
def structuredDuplicates (links : List Link) : List String :=
  osetOfList (((structuredLinks links).map linkToString).filter
    (fun c => decide (2 ≤ ((alookup (exactCounts links) c).getD 0))))

/-- The exact patterns pushed by `findPatterns` (duplicated contents not
consumed by the structured-duplicates step). -/
def exactPatterns (links : List Link) : List Pattern :=
  (exactCounts links).filterMap (fun kv =>
    if 2 ≤ kv.2 ∧ kv.1 ∉ structuredDuplicates links then
      some (⟨"exact", kv.1, [kv.1], kv.2⟩ : Pattern)
    else none)

/-- The prefix map after the structured-duplicates loop. -/
def preMap (links : List Link) : List (String × List String) :=
  (structuredDuplicates links).foldl (structStep (structuredLinks links)) []

/-- The prefix and suffix maps after the all-pairs loop. -/
def pairMaps (links : List Link) :
    List (String × List String) × List (String × List String) :=
  (pairIdx (validLinks links).length).foldl
    (pairStep (validLinks links) (structuredLinks links)) (preMap links, [])

/-- `findPatterns` from `src/index.ts`. -/
def findPatterns (links : List Link) : List Pattern :=
  exactPatterns links ++
    patternsFromMap (validLinks links) "prefix" (pairMaps links).1 ++
    patternsFromMap (validLinks links) "suffix" (pairMaps links).2

/-! ## Pattern selection (`selectBestPatterns`) -/

/-- The ranking score `count * pattern.split(' ').length`. -/
def score (p : Pattern) : Nat := p.count * (jsSplitChar ' ' p.pattern).length

/-- `a` may stay before `b` under the sort comparator (descending score, ties
descending count; input order preserved on full ties). -/
def keyGe (a b : Pattern) : Bool :=
  decide (score b < score a) || (decide (score a = score b) && decide (b.count ≤ a.count))

def insertPat (x : Pattern) : List Pattern → List Pattern
  | [] => [x]
  | y :: ys => if keyGe x y then x :: y :: ys else y :: insertPat x ys

/-- Stable sort by the comparator of `selectBestPatterns` (JS `Array.sort` is
stable, so any stable sort for the same total preorder agrees with it). -/
def sortPatterns : List Pattern → List Pattern
  | [] => []
  | x :: xs => insertPat x (sortPatterns xs)

/-- The selection budget `Math.max(1, Math.ceil(patterns.length * topPercentage))`. -/
def selectionBudget (patterns : List Pattern) (topPercentage : ℚ) : Nat :=
  max 1 (Int.toNat ⌈(patterns.length : ℚ) * topPercentage⌉)

/-- The greedy accept/skip loop of `selectBestPatterns`, with its early break
once the budget is reached. -/
def selectLoop (budget : Nat) : List Pattern → List String → List Pattern → List Pattern
  | [], _, selected => selected
  | p :: rest, used, selected =>
    if p.items.any (fun it => used.contains it) then selectLoop budget rest used selected
    else
      let selected' := selected ++ [p]
      let used' := used ++ p.items
      if budget ≤ selected'.length then selected'
      else selectLoop budget rest used' selected'

/-- `selectBestPatterns` from `src/index.ts`. -/
def selectBestPatterns (patterns : List Pattern) (topPercentage : ℚ) : List Pattern :=
  selectLoop (selectionBudget patterns topPercentage) (sortPatterns patterns) [] []

/-! ## Rewrite (`applyPatterns`) -/

/-- `createReference` from `src/index.ts`. -/
def createReference (refId : Nat) (references : List String) : Link :=
  .mk (some (Nat.repr refId)) (references.map (fun r => Link.mk (some r) []))

/-- `createCompoundLink` from `src/index.ts`. -/
def createCompoundLink (parts : List Link) : Link := .mk none parts

/-- `map.set(item, {refId, pattern})`: update in place or append. -/
def mapSetR : List (String × Nat × Pattern) → String → Nat × Pattern →
    List (String × Nat × Pattern)
  | [], k, v => [(k, v)]
  | (k', v') :: rest, k, v =>
    if k' = k then (k', v) :: rest else (k', v') :: mapSetR rest k v

/-- The reference-id assignment loop of `applyPatterns`: every item of the
`n`-th processed pattern maps to `{refId := n, pattern}`, `n` starting at 1. -/
def buildReplAux : List Pattern → Nat → List (String × Nat × Pattern) →
    List (String × Nat × Pattern)
  | [], _, m => m
  | p :: ps, n, m =>
    buildReplAux ps (n + 1) (p.items.foldl (fun m' it => mapSetR m' it (n, p)) m)

def buildReplacements (patterns : List Pattern) : List (String × Nat × Pattern) :=
  buildReplAux patterns 1 []

/-- The usage links pushed for one rewritten entry (empty for a pattern whose
`type` is none of the three known discriminators, as in the source's
if/else-if chain). -/
def mkUsageLinks (refId : Nat) (pat : Pattern) (content : String) : List Link :=
  if pat.type = "exact" then [Link.mk (some (Nat.repr refId)) []]
  else if pat.type = "prefix" then
    if trimStr (strDrop content (strLen pat.pattern)) ≠ "" then
      [createCompoundLink (Link.mk (some (Nat.repr refId)) [] ::
        (jsSplitWs (trimStr (strDrop content (strLen pat.pattern)))).map
          (fun r => Link.mk (some r) []))]
    else [Link.mk (some (Nat.repr refId)) []]
  else if pat.type = "suffix" then
    if trimStr (strTake content (strLen content - strLen pat.pattern)) ≠ "" then
      [createCompoundLink
        ((jsSplitWs (trimStr (strTake content (strLen content - strLen pat.pattern)))).map
          (fun r => Link.mk (some r) []) ++ [Link.mk (some (Nat.repr refId)) []])]
    else [Link.mk (some (Nat.repr refId)) []]
  else []

/-- The entry-processing loop of `applyPatterns`; `defined` is the set of
already-defined reference ids. -/
def applyGo (repl : List (String × Nat × Pattern)) : List Link → List Nat → List Link
  | [], _ => []
  | l :: ls, defined =>
    match alookup repl (linkToString l) with
    | none => l :: applyGo repl ls defined
    | some (refId, pat) =>
      let defPart :=
        if defined.contains refId then []
        else [createReference refId (jsSplitWs pat.pattern)]
      let defined' := if defined.contains refId then defined else defined ++ [refId]
      defPart ++ mkUsageLinks refId pat (linkToString l) ++ applyGo repl ls defined'

/-- `applyPatterns` from `src/index.ts`. -/
def applyPatterns (links : List Link) (patterns : List Pattern) : List Link :=
  applyGo (buildReplacements patterns) links []

/-! Instrumented rewrite: the same loop, with every output link tagged as a
pass-through, a definition, or a usage.  `applyPatternsE_erase` proves that
forgetting the tags gives back `applyPatterns`. -/

inductive Emit where
  | pass (l : Link)
  | defn (r : Nat) (l : Link)
  | use (r : Nat) (l : Link)
deriving DecidableEq

def emitLink : Emit → Link
  | .pass l => l
  | .defn _ l => l
  | .use _ l => l

def applyGoE (repl : List (String × Nat × Pattern)) : List Link → List Nat → List Emit
  | [], _ => []
  | l :: ls, defined =>
    match alookup repl (linkToString l) with
    | none => .pass l :: applyGoE repl ls defined
    | some (refId, pat) =>
      let defPart :=
        if defined.contains refId then []
        else [Emit.defn refId (createReference refId (jsSplitWs pat.pattern))]
      let defined' := if defined.contains refId then defined else defined ++ [refId]
      defPart ++ (mkUsageLinks refId pat (linkToString l)).map (Emit.use refId) ++
        applyGoE repl ls defined'

def applyPatternsE (links : List Link) (patterns : List Pattern) : List Emit :=
  applyGoE (buildReplacements patterns) links []

/-! ## Auto-escape cascade (`autoEscape`) -/

/-- JS `\w` (word character) for the `\b` boundaries of the stage-1 regex. -/
def isWordChar (c : Char) : Bool := c.isAlphanum || c = '_'

/-- The character class `[^\s'"()]` of the stage-1 regex. -/
def notSpecialC (c : Char) : Bool :=
  !(c.isWhitespace || c = '\'' || c = '"' || c = '(' || c = ')')

/-- `\b`: a word boundary between two (possibly absent) adjacent characters. -/
def wordBoundary (prev next : Option Char) : Bool :=
  !((match prev with | some c => isWordChar c | none => false) ==
    (match next with | some c => isWordChar c | none => false))

/-- Try to match `\b([^\s'"()]+:[^\s'"()]*)\b` at the start of `cs` (with
`prev` the character just before `cs`), returning the match length.  Regex
backtracking order: the `+` part ends at the latest colon of the
`[^\s'"()]`-run, then the `*` part is as long as possible subject to the final
`\b`. -/
def findColonMatch (prev : Option Char) (cs : List Char) : Option Nat :=
  if !wordBoundary prev cs.head? then none
  else
    let run := cs.takeWhile notSpecialC
    let r := run.length
    let ks := ((List.range r).filter (fun p => decide (1 ≤ p) && (run.getD p ' ' == ':'))).reverse
    ks.findSome? (fun k =>
      ((List.range (r - k)).reverse.map (fun b => k + 1 + b)).find? (fun e =>
        wordBoundary (cs.get? (e - 1)) (cs.get? e)))

/-- Left-to-right global scan of `input.replace(/\b([^\s'"()]+:[^\s'"()]*)\b/g, "'$1'")`;
the fuel (first argument) strictly exceeds the number of remaining characters,
and every step consumes at least one character. -/
def replaceColonGo : Nat → Option Char → List Char → List Char
  | 0, _, _ => []
  | _ + 1, _, [] => []
  | fuel + 1, prev, c :: cs =>
    match findColonMatch prev (c :: cs) with
    | some e =>
      let matched := (c :: cs).take e
      let rest := (c :: cs).drop e
      '\'' :: (matched ++ '\'' :: replaceColonGo fuel matched.getLast? rest)
    | none => c :: replaceColonGo fuel (some c) cs

/-- Stage 1 of `autoEscape`: quote colon-bearing tokens. -/
def replaceColonTokens (s : String) : String :=
  ⟨replaceColonGo (s.data.length + 1) none s.data⟩

/-- `line.split(/\s+/).filter(reference => reference.length > 0)`. -/
def wsTokens (line : String) : List String :=
  (jsSplitWs line).filter (fun t => decide (t ≠ ""))

def startsWithQ (t : String) (q : Char) : Bool := t.data.head? == some q

def endsWithQ (t : String) (q : Char) : Bool := t.data.getLast? == some q

/-- The trailing-punctuation quoted form `/^q.*q[,;.]$/` of stage 2. -/
def quotedWithTrail (q : Char) (t : String) : Bool :=
  match t.data with
  | [] => false
  | c :: rest =>
    c == q &&
      (match rest.getLast?, rest.dropLast.getLast? with
       | some p, some q' => (p == ',' || p == ';' || p == '.') && q' == q
       | _, _ => false)

/-- `/^[(){}[\],]+$/`: a non-empty run of bracket/comma punctuation. -/
def isPurePunct (t : String) : Bool :=
  !t.data.isEmpty &&
    t.data.all (fun c =>
      c == '(' || c == ')' || c == '{' || c == '}' || c == '[' || c == ']' || c == ',')

def hasColon (t : String) : Bool := t.data.contains ':'

/-- `/[()][a-zA-Z]|[a-zA-Z][()]/`: a parenthesis adjacent to a letter. -/
def parenLetterAdj (t : String) : Bool :=
  (t.data.zip t.data.tail).any (fun cd =>
    ((cd.1 == '(' || cd.1 == ')') && cd.2.isAlpha) ||
      (cd.1.isAlpha && (cd.2 == '(' || cd.2 == ')')))

/-- The per-token classification of auto-escape's second pass. -/
def stage2Token (t : String) : String :=
  if (startsWithQ t '\'' && (endsWithQ t '\'' || quotedWithTrail '\'' t)) ||
      (startsWithQ t '"' && (endsWithQ t '"' || quotedWithTrail '"' t)) then t
  else if isPurePunct t then t
  else if hasColon t || parenLetterAdj t then quoteTok t
  else t

/-- Stage 2 of `autoEscape`: per-line, per-token classification pass. -/
def secondPassText (input : String) : String :=
  joinSep '\n' ((jsSplitChar '\n' input).map (fun line =>
    joinSep ' ' ((wsTokens line).map stage2Token)))

/-- The per-token transformation of the total-escape fallback: quote every
token that is not already fully quoted and is not pure punctuation. -/
def stage3Token (t : String) : String :=
  if startsWithQ t '\'' && endsWithQ t '\'' then t
  else if startsWithQ t '"' && endsWithQ t '"' then t
  else if isPurePunct t then t
  else quoteTok t

/-- Stage 3 of `autoEscape` (the final fallback), built from the original
input lines; its parseability is not re-checked. -/
def totalEscapeFallback (input : String) : String :=
  joinSep '\n' ((jsSplitChar '\n' input).map (fun line =>
    joinSep ' ' ((wsTokens line).map stage3Token)))

/-- `autoEscape` from `src/index.ts`, with the external parser passed in. -/
def autoEscape (parse : String → Option (List Link)) (input : String) : String :=
  let escaped := replaceColonTokens input
  match parse escaped with
  | some _ => escaped
  | none =>
    let secondPass := secondPassText input
    match parse secondPass with
    | some _ => secondPass
    | none => totalEscapeFallback input

/-! ## Orchestrator (`deduplicate`) -/

/-- `ParseError` from `src/errors.ts`. -/
structure ParseError where
  message : String
deriving DecidableEq

/-- `new ParseError()` (default message). -/
def parseErrorDefault : ParseError := ⟨"Input is not valid lino format"⟩

/-- `DeduplicationResult` from `src/index.ts` (`reason` is optional). -/
structure DeduplicationResult where
  output : String
  success : Bool
  reason : Option String
  patternsApplied : Nat
deriving DecidableEq

mutual
/-- Modelled from the spec: the external lino formatter (`formatLinks` of
`@linksplatform/protocols-lino`, not part of this repository) renders one
entry per line; a bare-id entry as the bare id, an id-labeled entry as
`"<id>: <space-joined children>"`, and a compound as its space-joined
children (spec §6, Formatter contract). -/
def renderLink : Link → String
  | .mk (some i) [] => i
  | .mk (some i) (v :: vs) => i ++ ": " ++ joinSep ' ' (renderLinks (v :: vs))
  | .mk none vs => joinSep ' ' (renderLinks vs)
def renderLinks : List Link → List String
  | [] => []
  | v :: vs => renderLink v :: renderLinks vs
end

/-- Modelled from the spec: `formatLinks(links, true)` — one entry per line. -/
def specFormatLinks (links : List Link) : String :=
  joinSep '\n' (links.map renderLink)

/-- The processed input of `deduplicate` (auto-escaped when enabled). -/
def procInput (parse : String → Option (List Link)) (input : String)
    (autoEscapeEnabled : Bool) : String :=
  if autoEscapeEnabled then autoEscape parse input else input

/-- `deduplicate` from `src/index.ts`; `throw new ParseError()` becomes
`Except.error`, and the external parser is passed in as a function returning
`none` on a parse failure. -/
def deduplicate (parse : String → Option (List Link)) (input : String)
    (topPercentage : ℚ) (autoEscapeEnabled : Bool) (failOnParseError : Bool) :
    Except ParseError DeduplicationResult :=
  if trimStr input = "" then .ok ⟨input, false, some "Empty input", 0⟩
  else
    let processedInput := procInput parse input autoEscapeEnabled
    match parse processedInput with
    | none =>
      if failOnParseError then .error parseErrorDefault
      else .ok ⟨processedInput, false, some "Parsing failed", 0⟩
    | some links =>
      let patterns := findPatterns links
      let selectedPatterns := selectBestPatterns patterns topPercentage
      if selectedPatterns.length = 0 then
        .ok ⟨specFormatLinks links, false, some "No deduplication patterns found", 0⟩
      else
        .ok ⟨specFormatLinks (applyPatterns links selectedPatterns), true, none,
          selectedPatterns.length⟩

def exceptIsOk {ε α : Type} : Except ε α → Bool
  | .ok _ => true
  | .error _ => false

/-! ## Lemmas about pattern selection -/

theorem contains_iff_mem (l : List String) (x : String) : l.contains x = true ↔ x ∈ l := by
  simp [List.elem_iff]

theorem insertPat_length (x : Pattern) (l : List Pattern) :
    (insertPat x l).length = l.length + 1 := by
  induction l with
  | nil => rfl
  | cons y ys ih =>
    simp only [insertPat]
    split <;> simp [ih]

theorem sortPatterns_length (l : List Pattern) : (sortPatterns l).length = l.length := by
  induction l with
  | nil => rfl
  | cons x xs ih => simp [sortPatterns, insertPat_length, ih]

theorem selectLoop_length_mono (budget : Nat) (ps : List Pattern) (used : List String)
    (selected : List Pattern) :
    selected.length ≤ (selectLoop budget ps used selected).length := by
  induction ps generalizing used selected with
  | nil => simp [selectLoop]
  | cons p rest ih =>
    simp only [selectLoop]
    split
    · exact ih used selected
    · split
      · simp
      · calc selected.length ≤ (selected ++ [p]).length := by simp
          _ ≤ _ := ih _ _

theorem selectLoop_length_le (budget : Nat) (ps : List Pattern) (used : List String)
    (selected : List Pattern) (h : selected.length < budget) :
    (selectLoop budget ps used selected).length ≤ budget := by
  induction ps generalizing used selected with
  | nil => simpa [selectLoop] using Nat.le_of_lt h
  | cons p rest ih =>
    simp only [selectLoop]
    split
    · exact ih used selected h
    · rename_i hov
      split
      · rename_i hb
        simp only [List.length_append, List.length_cons, List.length_nil]
        omega
      · rename_i hb
        apply ih
        simp only [List.length_append, List.length_cons, List.length_nil] at hb ⊢
        omega

/-- The items of every already-selected pattern are in `used`; invariant of
the greedy loop. -/
def SelInv (used : List String) (selected : List Pattern) : Prop :=
  ∀ p ∈ selected, ∀ s ∈ p.items, s ∈ used

/-- Pairwise item-disjointness of the selected patterns. -/
def ItemsDisj (p q : Pattern) : Prop := ∀ s ∈ p.items, s ∉ q.items

theorem selectLoop_pairwise (budget : Nat) (ps : List Pattern) (used : List String)
    (selected : List Pattern) (hp : selected.Pairwise ItemsDisj)
    (hinv : SelInv used selected) :
    (selectLoop budget ps used selected).Pairwise ItemsDisj := by
  induction ps generalizing used selected with
  | nil => simpa [selectLoop]
  | cons p rest ih =>
    simp only [selectLoop]
    split
    · exact ih used selected hp hinv
    · rename_i hov
      have hnov : ∀ s ∈ p.items, s ∉ used := by
        intro s hs hsu
        exact hov (by
          refine List.any_eq_true.mpr ⟨s, hs, ?_⟩
          exact (contains_iff_mem used s).mpr hsu)
      have hp' : (selected ++ [p]).Pairwise ItemsDisj := by
        refine List.pairwise_append.mpr ⟨hp, by simp [List.Pairwise], ?_⟩
        intro a ha b hb
        simp only [List.mem_singleton] at hb
        subst hb
        intro s hs
        exact fun hsp => hnov s hsp (hinv a ha s hs)
      have hinv' : SelInv (used ++ p.items) (selected ++ [p]) := by
        intro q hq s hs
        rcases List.mem_append.mp hq with hq | hq
        · exact List.mem_append_left _ (hinv q hq s hs)
        · simp only [List.mem_singleton] at hq
          subst hq
          exact List.mem_append_right _ hs
      split
      · exact hp'
      · exact ih _ _ hp' hinv'

theorem selectionBudget_one (pats : List Pattern) :
    selectionBudget pats 1 = max 1 pats.length := by
  simp [selectionBudget]

/-! ## Claim C1 -/

def patsC1 : List Pattern := [⟨"exact", "a b", ["a b"], 2⟩, ⟨"exact", "a b", ["a b"], 2⟩]

/-- C1, counterexample: for the two overlapping patterns `patsC1` (both
covering the content `"a b"`) and `topPercentage = 1`, the budget
`max(1, ceil(2 * 1))` is `2` but `selectBestPatterns` returns only one
pattern, so the returned count is not *exactly* the budget. -/
theorem C1_counterexample :
    patsC1.length = 2 ∧ (0 : ℚ) ≤ 1 ∧ (1 : ℚ) ≤ 1 ∧
      max 1 (Int.toNat ⌈(patsC1.length : ℚ) * 1⌉) = 2 ∧
      (selectBestPatterns patsC1 1).length = 1 := by
  have hb : selectionBudget patsC1 1 = 2 := by rw [selectionBudget_one]; decide
  refine ⟨by decide, by norm_num, by norm_num, hb, ?_⟩
  simp only [selectBestPatterns, hb]
  decide

/-- C1, amended: for every non-empty pattern list and every `topPercentage`,
`selectBestPatterns` returns at least one and at most
`max(1, ceil(totalPatterns * topPercentage))` patterns; it may return fewer
than the budget when overlapping patterns are skipped. -/
theorem C1_theorem (patterns : List Pattern) (topPercentage : ℚ)
    (h : patterns ≠ []) :
    1 ≤ (selectBestPatterns patterns topPercentage).length ∧
      (selectBestPatterns patterns topPercentage).length ≤
        max 1 (Int.toNat ⌈(patterns.length : ℚ) * topPercentage⌉) := by
  constructor
  · unfold selectBestPatterns
    have hs : sortPatterns patterns ≠ [] := by
      intro hc
      apply h
      have hl := sortPatterns_length patterns
      rw [hc] at hl
      exact List.length_eq_zero.mp hl.symm
    obtain ⟨q, qs, hqqs⟩ := List.exists_cons_of_ne_nil hs
    rw [hqqs]
    simp only [selectLoop]
    rw [if_neg (by simp [List.contains])]
    split
    · simp
    · calc 1 = (([] : List Pattern) ++ [q]).length := by simp
        _ ≤ _ := selectLoop_length_mono _ _ _ _
  · show _ ≤ selectionBudget patterns topPercentage
    apply selectLoop_length_le
    simp only [List.length_nil, selectionBudget]
    exact Nat.lt_of_lt_of_le Nat.zero_lt_one (le_max_left _ _)

def patsC1w : List Pattern := [⟨"exact", "a b", ["a b"], 2⟩]

/-- C1, witness for the amended theorem at a concrete input. -/
theorem C1_witness :
    patsC1w ≠ [] ∧ 1 ≤ (selectBestPatterns patsC1w 1).length ∧
      (selectBestPatterns patsC1w 1).length ≤
        max 1 (Int.toNat ⌈(patsC1w.length : ℚ) * 1⌉) :=
  ⟨by decide, (C1_theorem patsC1w 1 (by decide)).1, (C1_theorem patsC1w 1 (by decide)).2⟩

/-! ## Claim C2 -/

/-- C2: no flattened-content string appears in the items of more than one
pattern returned by `selectBestPatterns` (positions `i ≠ j` of the result have
disjoint `items`). -/
theorem C2_theorem (patterns : List Pattern) (topPercentage : ℚ) (i j : Nat) (s : String)
    (hi : i < (selectBestPatterns patterns topPercentage).length)
    (hj : j < (selectBestPatterns patterns topPercentage).length)
    (hne : i ≠ j)
    (hs : s ∈ ((selectBestPatterns patterns topPercentage).getD i default).items) :
    s ∉ ((selectBestPatterns patterns topPercentage).getD j default).items := by
  have hpw : (selectBestPatterns patterns topPercentage).Pairwise ItemsDisj := by
    unfold selectBestPatterns
    exact selectLoop_pairwise _ _ _ _ List.Pairwise.nil
      (fun p hp => absurd hp (List.not_mem_nil p))
  set L := selectBestPatterns patterns topPercentage with hL
  have hgi : L.getD i default = L[i] := by
    simp [List.getD_eq_getElem?_getD, List.getElem?_eq_getElem hi]
  have hgj : L.getD j default = L[j] := by
    simp [List.getD_eq_getElem?_getD, List.getElem?_eq_getElem hj]
  rw [hgi] at hs
  rw [hgj]
  rcases Nat.lt_or_ge i j with hij | hij
  · exact List.pairwise_iff_getElem.mp hpw i j hi hj hij s hs
  · have hji : j < i := Nat.lt_of_le_of_ne hij (Ne.symm hne)
    intro hsj
    exact List.pairwise_iff_getElem.mp hpw j i hj hi hji s hsj hs

def patsC2w : List Pattern := [⟨"exact", "a b", ["a b"], 2⟩, ⟨"exact", "c d", ["c d"], 2⟩]

/-- C2, witness: a concrete selection of two patterns with disjoint items. -/
theorem C2_witness :
    (0 < (selectBestPatterns patsC2w 1).length ∧ 1 < (selectBestPatterns patsC2w 1).length ∧
        (0 : Nat) ≠ 1 ∧ "a b" ∈ ((selectBestPatterns patsC2w 1).getD 0 default).items) ∧
      "a b" ∉ ((selectBestPatterns patsC2w 1).getD 1 default).items := by
  have hb : selectionBudget patsC2w 1 = 2 := by rw [selectionBudget_one]; decide
  have h1 : 0 < (selectBestPatterns patsC2w 1).length := by
    simp only [selectBestPatterns, hb]; decide
  have h2 : 1 < (selectBestPatterns patsC2w 1).length := by
    simp only [selectBestPatterns, hb]; decide
  have h4 : "a b" ∈ ((selectBestPatterns patsC2w 1).getD 0 default).items := by
    simp only [selectBestPatterns, hb]; decide
  exact ⟨⟨h1, h2, by decide, h4⟩, C2_theorem patsC2w 1 0 1 "a b" h1 h2 (by decide) h4⟩

/-! ## Lemmas about reference-id assignment -/

theorem mapSetR_alookup_self (m : List (String × Nat × Pattern)) (k : String) (v : Nat × Pattern) :
    alookup (mapSetR m k v) k = some v := by
  induction m with
  | nil => simp [mapSetR, alookup]
  | cons kv rest ih =>
    obtain ⟨k', v'⟩ := kv
    simp only [mapSetR]
    split
    · rename_i h
      subst h
      simp [alookup]
    · rename_i h
      simp [alookup, h, ih]

theorem mapSetR_alookup_other (m : List (String × Nat × Pattern)) (k k' : String)
    (v : Nat × Pattern) (h : k' ≠ k) : alookup (mapSetR m k v) k' = alookup m k' := by
  induction m with
  | nil =>
    simp only [mapSetR, alookup]
    rw [if_neg (fun hc => h hc.symm)]
  | cons kv rest ih =>
    obtain ⟨k0, v0⟩ := kv
    simp only [mapSetR]
    split
    · rename_i h0
      subst h0
      simp only [alookup]
      rw [if_neg (fun hc => h hc.symm), if_neg (fun hc => h hc.symm)]
    · simp only [alookup]
      split
      · rfl
      · exact ih

theorem setfold_alookup_notmem (its : List String) (v : Nat × Pattern)
    (m : List (String × Nat × Pattern)) (it : String) (h : it ∉ its) :
    alookup (its.foldl (fun m' x => mapSetR m' x v) m) it = alookup m it := by
  induction its generalizing m with
  | nil => rfl
  | cons x xs ih =>
    have hx : it ≠ x := fun hc => h (hc ▸ List.mem_cons_self x xs)
    have hxs : it ∉ xs := fun hc => h (List.mem_cons_of_mem x hc)
    simp only [List.foldl_cons]
    rw [ih _ hxs, mapSetR_alookup_other _ _ _ _ hx]

theorem setfold_alookup_mem (its : List String) (v : Nat × Pattern)
    (m : List (String × Nat × Pattern)) (it : String) (h : it ∈ its) :
    alookup (its.foldl (fun m' x => mapSetR m' x v) m) it = some v := by
  induction its generalizing m with
  | nil => exact absurd h (List.not_mem_nil it)
  | cons x xs ih =>
    simp only [List.foldl_cons]
    by_cases hx : it ∈ xs
    · exact ih _ hx
    · have : it = x := by
        rcases List.mem_cons.mp h with h' | h'
        · exact h'
        · exact absurd h' hx
      subst this
      rw [setfold_alookup_notmem _ _ _ _ hx, mapSetR_alookup_self]

theorem buildReplAux_alookup_notmem (ps : List Pattern) (n : Nat)
    (m : List (String × Nat × Pattern)) (it : String) (h : ∀ q ∈ ps, it ∉ q.items) :
    alookup (buildReplAux ps n m) it = alookup m it := by
  induction ps generalizing n m with
  | nil => rfl
  | cons p ps' ih =>
    simp only [buildReplAux]
    rw [ih _ _ (fun q hq => h q (List.mem_cons_of_mem p hq)),
      setfold_alookup_notmem _ _ _ _ (h p (List.mem_cons_self p ps'))]

theorem buildReplAux_alookup (ps : List Pattern) (i : Nat) (it : String) (n : Nat)
    (m : List (String × Nat × Pattern)) (hd : ps.Pairwise ItemsDisj) (hi : i < ps.length)
    (hit : it ∈ (ps.getD i default).items) :
    alookup (buildReplAux ps n m) it = some (n + i, ps.getD i default) := by
  induction ps generalizing i n m with
  | nil => exact absurd hi (by simp)
  | cons p ps' ih =>
    rcases List.pairwise_cons.mp hd with ⟨hhead, htail⟩
    cases i with
    | zero =>
      rw [List.getD_cons_zero] at hit ⊢
      simp only [buildReplAux]
      rw [buildReplAux_alookup_notmem _ _ _ _ (fun q hq => hhead q hq it hit),
        setfold_alookup_mem _ _ _ _ hit, Nat.add_zero]
    | succ i' =>
      rw [List.getD_cons_succ] at hit ⊢
      simp only [buildReplAux]
      have h := ih i' (n + 1)
        (p.items.foldl (fun m' it => mapSetR m' it (n, p)) m) htail
        (by simpa using hi) hit
      rw [h]
      congr 2
      omega

/-! ## Claim C3 -/

def leafL (s : String) : Link := .mk (some s) []

def compL (vs : List Link) : Link := .mk none vs

def linksC3 : List Link :=
  [compL [leafL "p", leafL "q"], compL [leafL "p", leafL "q"],
   compL [leafL "a", leafL "b", leafL "c"], compL [leafL "a", leafL "b", leafL "d"],
   compL [leafL "a", leafL "b", leafL "e"]]

def prefPatC3 : Pattern := ⟨"prefix", "a b", ["a b c", "a b d", "a b e"], 3⟩

def exactPatC3 : Pattern := ⟨"exact", "p q", ["p q"], 2⟩

/-- The input position of the first entry covered by a pattern. -/
def firstCoveredIdx (links : List Link) (p : Pattern) : Nat :=
  links.findIdx (fun l => p.items.contains (linkToString l))

/-- The reference id that the rewrite step assigns to a covered content. -/
def refIdOfItem (pats : List Pattern) (it : String) : Nat :=
  match alookup (buildReplacements pats) it with
  | some (r, _) => r
  | none => 0

/-- C3, counterexample: on `linksC3` with `topPercentage = 1`, the selected
patterns are the score-ordered `[prefPatC3, exactPatC3]`; `exactPatC3`'s first
covered entry is at input position 0 and `prefPatC3`'s at position 2, yet the
rewrite step gives `exactPatC3`'s item the reference id 2 and `prefPatC3`'s
items the id 1 — reference numbers follow selection order, not
first-seen-in-input order. -/
theorem C3_counterexample :
    selectBestPatterns (findPatterns linksC3) 1 = [prefPatC3, exactPatC3] ∧
      firstCoveredIdx linksC3 exactPatC3 = 0 ∧
      firstCoveredIdx linksC3 prefPatC3 = 2 ∧
      refIdOfItem [prefPatC3, exactPatC3] "p q" = 2 ∧
      refIdOfItem [prefPatC3, exactPatC3] "a b c" = 1 := by
  have hb : selectionBudget (findPatterns linksC3) 1 = 2 := by
    rw [selectionBudget_one]; decide
  refine ⟨?_, by decide, by decide, by decide, by decide⟩
  simp only [selectBestPatterns, hb]
  decide

/-- C3, amended: `applyPatterns` assigns reference ids in *selection order* —
for item-disjoint selected patterns (which `selectBestPatterns` guarantees),
every item of the `i`-th selected pattern is mapped to reference id `i + 1`. -/
theorem C3_theorem (patterns : List Pattern) (i : Nat) (it : String)
    (hd : patterns.Pairwise ItemsDisj) (hi : i < patterns.length)
    (hit : it ∈ (patterns.getD i default).items) :
    alookup (buildReplacements patterns) it = some (i + 1, patterns.getD i default) := by
  have h := buildReplAux_alookup patterns i it 1 [] hd hi hit
  rwa [Nat.add_comm 1 i] at h

def patsC3w : List Pattern := [⟨"exact", "x y", ["x y"], 2⟩, ⟨"exact", "u v", ["u v"], 2⟩]

/-- C3, witness for the amended theorem at a concrete input. -/
theorem C3_witness :
    patsC3w.Pairwise ItemsDisj ∧ 1 < patsC3w.length ∧
      "u v" ∈ (patsC3w.getD 1 default).items ∧
      alookup (buildReplacements patsC3w) "u v" = some (2, patsC3w.getD 1 default) := by
  have h1 : patsC3w.Pairwise ItemsDisj := by
    refine List.Pairwise.cons ?_ (List.Pairwise.cons (by simp) List.Pairwise.nil)
    intro q hq s hs
    simp only [patsC3w, List.mem_singleton] at hq
    subst hq
    simp only [patsC3w] at hs
    simp_all
  exact ⟨h1, by decide, by decide, C3_theorem patsC3w 1 "u v" h1 (by decide) (by decide)⟩

/-! ## Claims C4, C9, C10 (error handling, auto-escape fallback, safety) -/

/-- C4: on non-blank input whose (optionally auto-escaped) text fails to
parse, `deduplicate` raises a parse error when `failOnParseError` is set, and
otherwise returns the processed text with `success = false`,
`reason = "Parsing failed"`, `patternsApplied = 0`. -/
theorem C4_theorem (parse : String → Option (List Link)) (input : String)
    (topPercentage : ℚ) (autoEscapeEnabled failOnParseError : Bool)
    (hne : trimStr input ≠ "")
    (hfail : parse (procInput parse input autoEscapeEnabled) = none) :
    deduplicate parse input topPercentage autoEscapeEnabled failOnParseError =
      if failOnParseError then Except.error parseErrorDefault
      else Except.ok ⟨procInput parse input autoEscapeEnabled, false, some "Parsing failed", 0⟩ := by
  simp only [deduplicate, hfail, if_neg hne]

def parseNone : String → Option (List Link) := fun _ => none

/-- C4, witness at the concrete input `"x"` with an always-failing parser. -/
theorem C4_witness :
    trimStr "x" ≠ "" ∧ parseNone (procInput parseNone "x" false) = none ∧
      deduplicate parseNone "x" 1 false true = Except.error parseErrorDefault ∧
      deduplicate parseNone "x" 1 false false =
        Except.ok ⟨"x", false, some "Parsing failed", 0⟩ := by
  refine ⟨by decide, rfl, ?_, ?_⟩
  · simpa using C4_theorem parseNone "x" 1 false true (by decide) rfl
  · simpa using C4_theorem parseNone "x" 1 false false (by decide) rfl

/-- C9: when stage 1's colon-quoted text and stage 2's token-classified text
both fail to parse, `autoEscape` returns the total-escape fallback — built
from the original input lines with every token quoted except fully quoted
tokens and pure punctuation runs — without re-checking that it parses
(`totalEscapeFallback` does not depend on the parser). -/
theorem C9_theorem (parse : String → Option (List Link)) (input : String)
    (h1 : parse (replaceColonTokens input) = none)
    (h2 : parse (secondPassText input) = none) :
    autoEscape parse input = totalEscapeFallback input := by
  simp only [autoEscape, h1, h2]

/-- C9, witness at a concrete input with an always-failing parser. -/
theorem C9_witness :
    parseNone (replaceColonTokens "a b") = none ∧
      parseNone (secondPassText "a b") = none ∧
      autoEscape parseNone "a b" = totalEscapeFallback "a b" :=
  ⟨rfl, rfl, C9_theorem parseNone "a b" rfl rfl⟩

/-- C10: with `failOnParseError = false`, `deduplicate` always returns a
result (never raises); an `Except.error` is only possible when
`failOnParseError = true`, the input is not blank, and the processed input
fails to parse. -/
theorem C10_theorem (parse : String → Option (List Link)) (input : String)
    (topPercentage : ℚ) (autoEscapeEnabled : Bool) :
    exceptIsOk (deduplicate parse input topPercentage autoEscapeEnabled false) = true ∧
      ∀ failOnParseError e,
        deduplicate parse input topPercentage autoEscapeEnabled failOnParseError =
          Except.error e →
        failOnParseError = true ∧
          parse (procInput parse input autoEscapeEnabled) = none ∧ trimStr input ≠ "" := by
  by_cases h0 : trimStr input = ""
  · refine ⟨by simp [deduplicate, h0, exceptIsOk], ?_⟩
    intro f e he
    simp [deduplicate, h0] at he
  · cases hp : parse (procInput parse input autoEscapeEnabled) with
    | none =>
      refine ⟨by simp [deduplicate, h0, hp, exceptIsOk], ?_⟩
      intro f e he
      simp only [deduplicate, if_neg h0, hp] at he
      cases f with
      | true => exact ⟨rfl, rfl, h0⟩
      | false => simp at he
    | some links =>
      constructor
      · simp only [deduplicate, if_neg h0, hp]
        split <;> rfl
      · intro f e he
        simp only [deduplicate, if_neg h0, hp] at he
        split at he <;> simp at he

/-- C10, witness: a concrete non-raising run and a concrete raising run whose
error implies the characterization. -/
theorem C10_witness :
    exceptIsOk (deduplicate parseNone "x" 1 false false) = true ∧
      parseNone (procInput parseNone "x" false) = none ∧ trimStr "x" ≠ "" :=
  ⟨(C10_theorem parseNone "x" 1 false).1,
    ((C10_theorem parseNone "x" 1 false).2 true parseErrorDefault rfl).2⟩

/-! ## Claim C7 (prefix rewrite end-to-end on two entries) -/

def linksC7 : List Link :=
  [compL [leafL "a", leafL "b", leafL "c"], compL [leafL "a", leafL "b", leafL "d"]]

/-- C7: for the two entries `"a b c"` and `"a b d"` with `topPercentage = 1`,
the pipeline finds the prefix pattern `"a b"`, selects it, and the rewritten
entry sequence formats (via the spec's formatter contract) as the definition
`1: a b` followed by `1 c` and `1 d` in the original order. -/
theorem C7_theorem :
    findPatterns linksC7 = [⟨"prefix", "a b", ["a b c", "a b d"], 2⟩] ∧
      selectBestPatterns (findPatterns linksC7) 1 = findPatterns linksC7 ∧
      applyPatterns linksC7 (selectBestPatterns (findPatterns linksC7) 1) =
        [Link.mk (some "1") [leafL "a", leafL "b"],
          compL [leafL "1", leafL "c"], compL [leafL "1", leafL "d"]] ∧
      specFormatLinks (applyPatterns linksC7 (selectBestPatterns (findPatterns linksC7) 1)) =
        "1: a b\n1 c\n1 d" := by
  have hb : selectionBudget (findPatterns linksC7) 1 = 1 := by
    rw [selectionBudget_one]; decide
  refine ⟨by decide, ?_, ?_, ?_⟩ <;> simp only [selectBestPatterns, hb] <;> decide

/-! ## Lemmas about the rewrite loop (claim C8) -/

theorem natContains_iff (l : List Nat) (x : Nat) : l.contains x = true ↔ x ∈ l := by
  simp [List.elem_iff]

/-- Is this emission a definition of reference `r`? -/
def defnOf (r : Nat) : Emit → Bool
  | .defn r' _ => r' == r
  | _ => false

/-- Is this emission a usage of reference `r`? -/
def useOf (r : Nat) : Emit → Bool
  | .use r' _ => r' == r
  | _ => false

theorem applyGoE_cons_none (repl : List (String × Nat × Pattern)) (l : Link)
    (ls : List Link) (defined : List Nat) (h : alookup repl (linkToString l) = none) :
    applyGoE repl (l :: ls) defined = .pass l :: applyGoE repl ls defined := by
  simp only [applyGoE, h]

theorem applyGoE_cons_some (repl : List (String × Nat × Pattern)) (l : Link)
    (ls : List Link) (defined : List Nat) (refId : Nat) (pat : Pattern)
    (h : alookup repl (linkToString l) = some (refId, pat)) :
    applyGoE repl (l :: ls) defined =
      (if defined.contains refId then []
        else [Emit.defn refId (createReference refId (jsSplitWs pat.pattern))]) ++
      (mkUsageLinks refId pat (linkToString l)).map (Emit.use refId) ++
      applyGoE repl ls (if defined.contains refId then defined else defined ++ [refId]) := by
  simp only [applyGoE, h]

theorem applyGo_cons_none (repl : List (String × Nat × Pattern)) (l : Link)
    (ls : List Link) (defined : List Nat) (h : alookup repl (linkToString l) = none) :
    applyGo repl (l :: ls) defined = l :: applyGo repl ls defined := by
  simp only [applyGo, h]

theorem applyGo_cons_some (repl : List (String × Nat × Pattern)) (l : Link)
    (ls : List Link) (defined : List Nat) (refId : Nat) (pat : Pattern)
    (h : alookup repl (linkToString l) = some (refId, pat)) :
    applyGo repl (l :: ls) defined =
      (if defined.contains refId then []
        else [createReference refId (jsSplitWs pat.pattern)]) ++
      mkUsageLinks refId pat (linkToString l) ++
      applyGo repl ls (if defined.contains refId then defined else defined ++ [refId]) := by
  simp only [applyGo, h]

theorem applyGoE_erase (repl : List (String × Nat × Pattern)) (ls : List Link)
    (defined : List Nat) :
    (applyGoE repl ls defined).map emitLink = applyGo repl ls defined := by
  induction ls generalizing defined with
  | nil => rfl
  | cons l ls' ih =>
    cases h : alookup repl (linkToString l) with
    | none =>
      rw [applyGoE_cons_none _ _ _ _ h, applyGo_cons_none _ _ _ _ h]
      simp [emitLink, ih]
    | some rv =>
      obtain ⟨refId, pat⟩ := rv
      rw [applyGoE_cons_some _ _ _ _ _ _ h, applyGo_cons_some _ _ _ _ _ _ h]
      simp only [List.map_append, ih, List.map_map]
      congr 1
      congr 1
      · split <;> simp [emitLink]
      · simp [Function.comp_def, emitLink]

/-- The usage links of one rewritten entry: none (unknown discriminator) or
exactly one. -/
theorem mkUsageLinks_cases (refId : Nat) (pat : Pattern) (content : String) :
    mkUsageLinks refId pat content = [] ∨ ∃ u, mkUsageLinks refId pat content = [u] := by
  unfold mkUsageLinks
  split
  · exact Or.inr ⟨_, rfl⟩
  · split
    · split
      · exact Or.inr ⟨_, rfl⟩
      · exact Or.inr ⟨_, rfl⟩
    · split
      · split
        · exact Or.inr ⟨_, rfl⟩
        · exact Or.inr ⟨_, rfl⟩
      · exact Or.inl rfl

/-- Emptiness of the usage links depends only on the pattern discriminator. -/
theorem mkUsageLinks_nil_all (refId : Nat) (pat : Pattern) (content : String)
    (h : mkUsageLinks refId pat content = []) :
    ∀ c, mkUsageLinks refId pat c = [] := by
  intro c
  unfold mkUsageLinks at h ⊢
  split at h
  · simp at h
  · rename_i h1
    split at h
    · split at h <;> simp at h
    · rename_i h2
      split at h
      · split at h <;> simp at h
      · rename_i h3
        simp [h1, h2, h3]

theorem buildReplAux_entries (ps : List Pattern) (n : Nat)
    (m : List (String × Nat × Pattern)) (k : String) (rid : Nat) (pat : Pattern)
    (h : alookup (buildReplAux ps n m) k = some (rid, pat)) :
    alookup m k = some (rid, pat) ∨
      ∃ j, j < ps.length ∧ rid = n + j ∧ pat = ps.getD j default := by
  induction ps generalizing n m with
  | nil => exact Or.inl h
  | cons p ps' ih =>
    simp only [buildReplAux] at h
    rcases ih _ _ h with h1 | ⟨j, hj, hrid, hpat⟩
    · by_cases hk : k ∈ p.items
      · rw [setfold_alookup_mem _ _ _ _ hk] at h1
        obtain ⟨h2, h3⟩ := Prod.mk.injEq _ _ _ _ ▸ (Option.some.injEq _ _ ▸ h1)
        exact Or.inr ⟨0, by simp, h2.symm ▸ by simp, by simpa [List.getD_cons_zero] using h3.symm⟩
      · rw [setfold_alookup_notmem _ _ _ _ hk] at h1
        exact Or.inl h1
    · exact Or.inr ⟨j + 1, by simpa using hj, by omega,
        by simpa [List.getD_cons_succ] using hpat⟩

/-- Every entry of the replacement map with reference id `rid` carries the
`(rid - 1)`-th pattern of the selected list. -/
theorem buildReplacements_lookup_char (ps : List Pattern) (k : String) (rid : Nat)
    (pat : Pattern) (h : alookup (buildReplacements ps) k = some (rid, pat)) :
    1 ≤ rid ∧ rid - 1 < ps.length ∧ pat = ps.getD (rid - 1) default := by
  rcases buildReplAux_entries ps 1 [] k rid pat h with h1 | ⟨j, hj, hrid, hpat⟩
  · simp [alookup] at h1
  · subst hrid
    refine ⟨by omega, by simpa using hj, ?_⟩
    simpa [Nat.add_sub_cancel_left, Nat.add_comm 1 j] using hpat

/-- Once `r` is in the defined set, no definition of `r` is ever re-emitted. -/
theorem applyGoE_no_defn (repl : List (String × Nat × Pattern)) (r : Nat) :
    ∀ (ls : List Link) (defined : List Nat), r ∈ defined →
      ∀ e ∈ applyGoE repl ls defined, defnOf r e = false := by
  intro ls
  induction ls with
  | nil => intro defined _ e he; simp [applyGoE] at he
  | cons l ls' ih =>
    intro defined hr e he
    cases h : alookup repl (linkToString l) with
    | none =>
      rw [applyGoE_cons_none _ _ _ _ h] at he
      rcases List.mem_cons.mp he with he | he
      · subst he; rfl
      · exact ih defined hr e he
    | some rv =>
      obtain ⟨refId, pat⟩ := rv
      rw [applyGoE_cons_some _ _ _ _ _ _ h] at he
      rcases List.mem_append.mp he with he | he
      · rcases List.mem_append.mp he with he | he
        · by_cases hd : defined.contains refId = true
          · rw [if_pos hd] at he
            simp at he
          · rw [if_neg hd] at he
            rcases List.mem_singleton.mp he with he
            subst he
            have hne : refId ≠ r := fun hc =>
              hd ((natContains_iff defined refId).mpr (hc ▸ hr))
            simp [defnOf, hne]
        · rcases List.mem_map.mp he with ⟨u, _, hu⟩
          subst hu; rfl
      · split at he
        · exact ih defined hr e he
        · exact ih (defined ++ [refId]) (List.mem_append_left _ hr) e he

/-- If the pattern bound to `r` emits no usage links, no usage of `r` ever
appears in the output. -/
theorem applyGoE_no_use (repl : List (String × Nat × Pattern)) (r : Nat) (patr : Pattern)
    (hca : ∀ k pat, alookup repl k = some (r, pat) → pat = patr)
    (hnil : ∀ c, mkUsageLinks r patr c = []) :
    ∀ (ls : List Link) (defined : List Nat), ∀ e ∈ applyGoE repl ls defined,
      useOf r e = false := by
  intro ls
  induction ls with
  | nil => intro defined e he; simp [applyGoE] at he
  | cons l ls' ih =>
    intro defined e he
    cases h : alookup repl (linkToString l) with
    | none =>
      rw [applyGoE_cons_none _ _ _ _ h] at he
      rcases List.mem_cons.mp he with he | he
      · subst he; rfl
      · exact ih defined e he
    | some rv =>
      obtain ⟨refId, pat⟩ := rv
      rw [applyGoE_cons_some _ _ _ _ _ _ h] at he
      rcases List.mem_append.mp he with he | he
      · rcases List.mem_append.mp he with he | he
        · split at he
          · simp at he
          · rcases List.mem_singleton.mp he with he
            subst he; rfl
        · rcases List.mem_map.mp he with ⟨u, hu0, hu⟩
          subst hu
          by_cases hrr : refId = r
          · subst hrr
            rw [hca _ _ h, hnil (linkToString l)] at hu0
            simp at hu0
          · simp [useOf, hrr]
      · split at he
        · exact ih _ e he
        · exact ih _ e he

/-- The shape of the emission stream with respect to one reference id `r`:
either `r` never appears; or its single definition immediately precedes its
first usage and is never re-emitted; or (unknown-discriminator patterns) a
single definition appears and `r` is never used. -/
def C8Prop (r : Nat) (es : List Emit) : Prop :=
  (∀ e ∈ es, defnOf r e = false ∧ useOf r e = false) ∨
  (∃ pre l1 l2 post, es = pre ++ Emit.defn r l1 :: Emit.use r l2 :: post ∧
    (∀ e ∈ pre, defnOf r e = false ∧ useOf r e = false) ∧
    (∀ e ∈ post, defnOf r e = false)) ∨
  ((∀ e ∈ es, useOf r e = false) ∧
    ∃ pre l1 post, es = pre ++ Emit.defn r l1 :: post ∧
      (∀ e ∈ pre, defnOf r e = false) ∧ (∀ e ∈ post, defnOf r e = false))

theorem C8Prop_prepend (r : Nat) (xs es : List Emit)
    (hxs : ∀ e ∈ xs, defnOf r e = false ∧ useOf r e = false)
    (h : C8Prop r es) : C8Prop r (xs ++ es) := by
  rcases h with h | ⟨pre, l1, l2, post, he, hpre, hpost⟩ | ⟨huse, pre, l1, post, he, hpre, hpost⟩
  · left
    intro e hee
    rcases List.mem_append.mp hee with hee | hee
    · exact hxs e hee
    · exact h e hee
  · right; left
    refine ⟨xs ++ pre, l1, l2, post, by rw [he, List.append_assoc], ?_, hpost⟩
    intro e hee
    rcases List.mem_append.mp hee with hee | hee
    · exact hxs e hee
    · exact hpre e hee
  · right; right
    refine ⟨?_, xs ++ pre, l1, post, by rw [he, List.append_assoc], ?_, hpost⟩
    · intro e hee
      rcases List.mem_append.mp hee with hee | hee
      · exact (hxs e hee).2
      · exact huse e hee
    · intro e hee
      rcases List.mem_append.mp hee with hee | hee
      · exact (hxs e hee).1
      · exact hpre e hee

theorem applyGoE_main (repl : List (String × Nat × Pattern)) (r : Nat) (patr : Pattern)
    (hca : ∀ k pat, alookup repl k = some (r, pat) → pat = patr) :
    ∀ (ls : List Link) (defined : List Nat), r ∉ defined →
      C8Prop r (applyGoE repl ls defined) := by
  intro ls
  induction ls with
  | nil =>
    intro defined _
    left
    intro e he
    simp [applyGoE] at he
  | cons l ls' ih =>
    intro defined hr
    cases h : alookup repl (linkToString l) with
    | none =>
      rw [applyGoE_cons_none _ _ _ _ h]
      exact C8Prop_prepend r [Emit.pass l] _ (by intro e he; rcases List.mem_singleton.mp he; exact ⟨rfl, rfl⟩)
        (ih defined hr)
    | some rv =>
      obtain ⟨refId, pat⟩ := rv
      rw [applyGoE_cons_some _ _ _ _ _ _ h]
      by_cases hrr : refId = r
      · subst hrr
        have hpat : pat = patr := hca _ _ h
        subst hpat
        have hdc : (defined.contains refId) = false := by
          by_contra hc
          exact hr ((natContains_iff defined refId).mp (by simpa using hc))
        rw [hdc]
        simp only [Bool.false_eq_true, if_false]
        have hrdef : refId ∈ defined ++ [refId] := List.mem_append_right _ (by simp)
        rcases mkUsageLinks_cases refId pat (linkToString l) with hnil0 | ⟨u, hu⟩
        · -- no usage is ever emitted for refId
          rw [hnil0]
          right; right
          have hnil := mkUsageLinks_nil_all refId pat (linkToString l) hnil0
          constructor
          · intro e he
            rcases List.mem_append.mp he with he | he
            · rcases List.mem_append.mp he with he | he
              · rcases List.mem_singleton.mp he with he
                subst he; rfl
              · simp at he
            · exact applyGoE_no_use repl refId pat hca hnil ls' _ e he
          · refine ⟨[], createReference refId (jsSplitWs pat.pattern),
              applyGoE repl ls' (defined ++ [refId]), by simp,
              fun e he => absurd he (List.not_mem_nil e), ?_⟩
            intro e he
            exact applyGoE_no_defn repl refId ls' _ hrdef e he
        · rw [hu]
          right; left
          refine ⟨[], createReference refId (jsSplitWs pat.pattern), u,
            applyGoE repl ls' (defined ++ [refId]), by simp,
            fun e he => absurd he (List.not_mem_nil e), ?_⟩
          intro e he
          exact applyGoE_no_defn repl refId ls' _ hrdef e he
      · have hxs : ∀ e ∈ ((if defined.contains refId then []
              else [Emit.defn refId (createReference refId (jsSplitWs pat.pattern))]) ++
              (mkUsageLinks refId pat (linkToString l)).map (Emit.use refId)),
            defnOf r e = false ∧ useOf r e = false := by
          intro e he
          rcases List.mem_append.mp he with he | he
          · split at he
            · simp at he
            · rcases List.mem_singleton.mp he with he
              subst he
              simp [defnOf, useOf, hrr]
          · rcases List.mem_map.mp he with ⟨u, _, hu⟩
            subst hu
            simp [defnOf, useOf, hrr]
        have hrec : C8Prop r (applyGoE repl ls'
            (if defined.contains refId then defined else defined ++ [refId])) := by
          split
          · exact ih defined hr
          · refine ih (defined ++ [refId]) ?_
            intro hc
            rcases List.mem_append.mp hc with hc | hc
            · exact hr hc
            · exact hrr (List.mem_singleton.mp hc).symm
        exact C8Prop_prepend r _ _ hxs hrec

/-! ## Claim C8 -/

/-- C8: in the emission stream of `applyPatterns` (tagged by
`applyPatternsE`, whose tag-erasure is `applyPatterns` itself), every
reference id `r` with at least one usage has exactly one definition: it
immediately precedes the first usage of `r` (no earlier usage or definition
exists) and is never re-emitted afterwards. -/
theorem C8_theorem (links : List Link) (patterns : List Pattern) (r : Nat)
    (h : ∃ e ∈ applyPatternsE links patterns, useOf r e = true) :
    ((applyPatternsE links patterns).map emitLink = applyPatterns links patterns) ∧
      ∃ pre l1 l2 post,
        applyPatternsE links patterns = pre ++ Emit.defn r l1 :: Emit.use r l2 :: post ∧
        (∀ e ∈ pre, defnOf r e = false ∧ useOf r e = false) ∧
        (∀ e ∈ post, defnOf r e = false) := by
  refine ⟨applyGoE_erase _ _ _, ?_⟩
  obtain ⟨e0, he0, hu0⟩ := h
  have hca : ∀ k pat, alookup (buildReplacements patterns) k = some (r, pat) →
      pat = patterns.getD (r - 1) default := fun k pat hk =>
    (buildReplacements_lookup_char patterns k r pat hk).2.2
  have hmain := applyGoE_main (buildReplacements patterns) r
    (patterns.getD (r - 1) default) hca links [] (List.not_mem_nil r)
  rcases hmain with hnone | hgood | ⟨hnouse, _⟩
  · rw [(hnone e0 he0).2] at hu0
    exact absurd hu0 (by simp)
  · exact hgood
  · rw [hnouse e0 he0] at hu0
    exact absurd hu0 (by simp)

def linksC8w : List Link := [compL [leafL "a", leafL "b"], compL [leafL "a", leafL "b"]]

def patsC8w : List Pattern := [⟨"exact", "a b", ["a b"], 2⟩]

/-- C8, witness: a concrete emission stream with one definition immediately
before the first usage. -/
theorem C8_witness :
    (∃ e ∈ applyPatternsE linksC8w patsC8w, useOf 1 e = true) ∧
      (((applyPatternsE linksC8w patsC8w).map emitLink =
          applyPatterns linksC8w patsC8w) ∧
        ∃ pre l1 l2 post,
          applyPatternsE linksC8w patsC8w = pre ++ Emit.defn 1 l1 :: Emit.use 1 l2 :: post ∧
          (∀ e ∈ pre, defnOf 1 e = false ∧ useOf 1 e = false) ∧
          (∀ e ∈ post, defnOf 1 e = false)) :=
  ⟨by decide, C8_theorem linksC8w patsC8w 1 (by decide)⟩

/-! ## Lemmas about pattern discovery maps (claims C5 and C6) -/

theorem alookup_mem {β : Type} (m : List (String × β)) (k : String) (v : β)
    (h : alookup m k = some v) : (k, v) ∈ m := by
  induction m with
  | nil => simp [alookup] at h
  | cons kv rest ih =>
    obtain ⟨k', v'⟩ := kv
    simp only [alookup] at h
    split at h
    · rename_i hk
      subst hk
      simp at h
      simp [h]
    · exact List.mem_cons_of_mem _ (ih h)

theorem bump_lookup_self (m : List (String × Nat)) (k : String) :
    alookup (bump m k) k = some (((alookup m k).getD 0) + 1) := by
  induction m with
  | nil => simp [bump, alookup]
  | cons kv rest ih =>
    obtain ⟨k', n⟩ := kv
    simp only [bump]
    split
    · rename_i hk
      subst hk
      simp [alookup]
    · rename_i hk
      simp [alookup, hk, ih]

theorem bump_lookup_other (m : List (String × Nat)) (k k' : String) (h : k' ≠ k) :
    alookup (bump m k) k' = alookup m k' := by
  induction m with
  | nil =>
    simp only [bump, alookup]
    rw [if_neg (fun hc => h hc.symm)]
  | cons kv rest ih =>
    obtain ⟨k0, n⟩ := kv
    simp only [bump]
    split
    · rename_i hk
      subst hk
      simp only [alookup]
      rw [if_neg (fun hc => h hc.symm), if_neg (fun hc => h hc.symm)]
    · simp only [alookup]
      split
      · rfl
      · exact ih

/-- Content-count of a link list. -/
def countContent (ls : List Link) (c : String) : Nat := (ls.map linkToString).count c

theorem countContent_eq_filter_length (ls : List Link) (c : String) :
    countContent ls c = (ls.filter (fun l => linkToString l == c)).length := by
  induction ls with
  | nil => rfl
  | cons l rest ih =>
    simp only [countContent, List.map_cons, List.count_cons, List.filter_cons] at ih ⊢
    by_cases h : linkToString l = c
    · simp [h, ih, Nat.add_comm]
    · have h' : ¬(linkToString l == c) = true := by simpa using h
      have h'' : (c == linkToString l) = false := by
        simpa [BEq.comm] using h'
      simp [h', h'', ih]

theorem countContent_filter_le (p : Link → Bool) (ls : List Link) (c : String) :
    countContent (ls.filter p) c ≤ countContent ls c := by
  induction ls with
  | nil => exact Nat.le_refl _
  | cons l rest ih =>
    simp only [List.filter_cons]
    split
    · simp only [countContent, List.map_cons, List.count_cons] at ih ⊢
      omega
    · simp only [countContent, List.map_cons, List.count_cons] at ih ⊢
      omega

theorem countfold_lookup (ls : List Link) (m : List (String × Nat)) (c : String) :
    alookup (ls.foldl (fun m' l => bump m' (linkToString l)) m) c =
      match alookup m c, countContent ls c with
      | none, 0 => none
      | none, n + 1 => some (n + 1)
      | some k, n => some (k + n) := by
  induction ls generalizing m with
  | nil =>
    simp only [List.foldl_nil, countContent, List.map_nil, List.count_nil]
    cases alookup m c <;> rfl
  | cons l rest ih =>
    simp only [List.foldl_cons, ih]
    by_cases h : linkToString l = c
    · subst h
      rw [bump_lookup_self]
      have hc : countContent (l :: rest) (linkToString l) =
          countContent rest (linkToString l) + 1 := by
        simp [countContent, List.count_cons]
      rw [hc]
      cases halk : alookup m (linkToString l) <;> cases hr : countContent rest (linkToString l) <;>
        simp [halk] <;> omega
    · rw [bump_lookup_other m (linkToString l) c (fun hc => h hc.symm)]
      have hc : countContent (l :: rest) c = countContent rest c := by
        simp only [countContent, List.map_cons, List.count_cons]
        have h1 : (linkToString l == c) = false := beq_eq_false_iff_ne.mpr h
        have h2 : (c == linkToString l) = false :=
          beq_eq_false_iff_ne.mpr (fun hc => h hc.symm)
        simp [h1, h2]
      rw [hc]

theorem exactCounts_lookup (links : List Link) (c : String) :
    alookup (exactCounts links) c =
      if countContent (validLinks links) c = 0 then none
      else some (countContent (validLinks links) c) := by
  rw [exactCounts, countfold_lookup]
  simp only [alookup]
  cases h : countContent (validLinks links) c <;> simp

theorem osetAdd_mem_iff (s : List String) (a x : String) :
    x ∈ osetAdd s a ↔ x ∈ s ∨ x = a := by
  unfold osetAdd
  split
  · rename_i hmem
    constructor
    · exact Or.inl
    · rintro (h | rfl)
      · exact h
      · exact hmem
  · simp

theorem osetFold_mem (xs acc : List String) (x : String) :
    x ∈ xs.foldl osetAdd acc ↔ x ∈ acc ∨ x ∈ xs := by
  induction xs generalizing acc with
  | nil => simp
  | cons a rest ih =>
    simp only [List.foldl_cons, ih, osetAdd_mem_iff, List.mem_cons]
    tauto

theorem osetOfList_mem (xs : List String) (x : String) : x ∈ osetOfList xs ↔ x ∈ xs := by
  simp [osetOfList, osetFold_mem]

theorem omapAdd_lookup_self (m : List (String × List String)) (k x : String) :
    alookup (omapAdd m k x) k = some (osetAdd ((alookup m k).getD []) x) := by
  induction m with
  | nil => simp [omapAdd, alookup, osetAdd]
  | cons kv rest ih =>
    obtain ⟨k', s⟩ := kv
    simp only [omapAdd]
    split
    · rename_i hk
      subst hk
      simp [alookup]
    · rename_i hk
      simp [alookup, hk, ih]

theorem omapAdd_lookup_other (m : List (String × List String)) (k k' x : String)
    (h : k' ≠ k) : alookup (omapAdd m k x) k' = alookup m k' := by
  induction m with
  | nil =>
    simp only [omapAdd, alookup]
    rw [if_neg (fun hc => h hc.symm)]
  | cons kv rest ih =>
    obtain ⟨k0, s⟩ := kv
    simp only [omapAdd]
    split
    · rename_i hk
      subst hk
      simp only [alookup]
      rw [if_neg (fun hc => h hc.symm), if_neg (fun hc => h hc.symm)]
    · simp only [alookup]
      split
      · rfl
      · exact ih

/-- The map binds `k` to a set containing `x`. -/
def MapHasIn (m : List (String × List String)) (k x : String) : Prop :=
  ∃ S, alookup m k = some S ∧ x ∈ S

theorem mapHasIn_omapAdd (m : List (String × List String)) (k' x' k x : String)
    (h : MapHasIn m k x) : MapHasIn (omapAdd m k' x') k x := by
  obtain ⟨S, hS, hx⟩ := h
  by_cases hk : k' = k
  · subst hk
    refine ⟨_, omapAdd_lookup_self m k' x', ?_⟩
    rw [hS]
    exact (osetAdd_mem_iff _ _ _).mpr (Or.inl hx)
  · exact ⟨S, by rw [omapAdd_lookup_other m k' k x' (fun hc => hk hc.symm)]; exact hS, hx⟩

theorem mapHasIn_omapAdd_self (m : List (String × List String)) (k x : String) :
    MapHasIn (omapAdd m k x) k x :=
  ⟨_, omapAdd_lookup_self m k x, (osetAdd_mem_iff _ _ _).mpr (Or.inr rfl)⟩

theorem mapHasIn_addFold (ls : List Link) (pk : String) (m : List (String × List String))
    (k x : String) (h : MapHasIn m k x) :
    MapHasIn (ls.foldl (fun m' l => omapAdd m' pk (linkToString l)) m) k x := by
  induction ls generalizing m with
  | nil => exact h
  | cons l rest ih => exact ih _ (mapHasIn_omapAdd _ _ _ _ _ h)

theorem mapHasIn_structStep (structured : List Link) (m : List (String × List String))
    (c k x : String) (h : MapHasIn m k x) : MapHasIn (structStep structured m c) k x := by
  simp only [structStep]
  split
  · split
    · exact h
    · exact mapHasIn_addFold _ _ _ _ _ h
  · exact h

theorem mapHasIn_structFold (ds : List String) (structured : List Link)
    (m : List (String × List String)) (k x : String) (h : MapHasIn m k x) :
    MapHasIn (ds.foldl (structStep structured) m) k x := by
  induction ds generalizing m with
  | nil => exact h
  | cons d rest ih => exact ih _ (mapHasIn_structStep _ _ _ _ _ h)

theorem headD_mem {α : Type} [Inhabited α] (l : List α) (h : l ≠ []) :
    l.headD default ∈ l := by
  cases l with
  | nil => exact absurd rfl h
  | cons a rest => simp

theorem structStep_hasIn (structured : List Link) (m : List (String × List String))
    (c : String)
    (hlen : 2 ≤ (structured.filter (fun l => linkToString l == c)).length)
    (hv1 : 1 < ((structured.filter (fun l => linkToString l == c)).headD default).values.length)
    (hpk : linkToString
        (((structured.filter (fun l => linkToString l == c)).headD default).values.headD
          default) ≠ "") :
    MapHasIn (structStep structured m c)
      (linkToString
        (((structured.filter (fun l => linkToString l == c)).headD default).values.headD
          default)) c := by
  simp only [structStep]
  rw [if_pos ⟨hlen, hv1⟩, if_neg hpk]
  have hne : structured.filter (fun l => linkToString l == c) ≠ [] := by
    intro hc
    rw [hc] at hlen
    simp at hlen
  obtain ⟨l0, rest, hm⟩ := List.exists_cons_of_ne_nil hne
  rw [hm, List.foldl_cons]
  have hl0c : linkToString l0 = c := by
    have : l0 ∈ structured.filter (fun l => linkToString l == c) := by
      rw [hm]; simp
    have := List.of_mem_filter this
    simpa using this
  refine mapHasIn_addFold rest _ _ _ c ?_
  rw [hl0c]
  exact mapHasIn_omapAdd_self m _ c

theorem pairStep_shape (valid structured : List Link)
    (ms : List (String × List String) × List (String × List String)) (ij : Nat × Nat) :
    ((pairStep valid structured ms ij).1 = ms.1 ∨
      ∃ k c1 c2, findCommonPattern (jsSplitWs c1) (jsSplitWs c2) "prefix" = some k ∧ k ≠ "" ∧
        (pairStep valid structured ms ij).1 = omapAdd (omapAdd ms.1 k c1) k c2) ∧
    ((pairStep valid structured ms ij).2 = ms.2 ∨
      ∃ k c1 c2, findCommonPattern (jsSplitWs c1) (jsSplitWs c2) "suffix" = some k ∧ k ≠ "" ∧
        (pairStep valid structured ms ij).2 = omapAdd (omapAdd ms.2 k c1) k c2) := by
  simp only [pairStep]
  split
  · exact ⟨Or.inl rfl, Or.inl rfl⟩
  · split
    · exact ⟨Or.inl rfl, Or.inl rfl⟩
    · rcases hpre : findCommonPattern (jsSplitWs (linkToString (valid.getD ij.1 default)))
          (jsSplitWs (linkToString (valid.getD ij.2 default))) "prefix" with _ | k1 <;>
        rcases hsuf : findCommonPattern (jsSplitWs (linkToString (valid.getD ij.1 default)))
          (jsSplitWs (linkToString (valid.getD ij.2 default))) "suffix" with _ | k2 <;>
        simp only [hpre, hsuf]
      · exact ⟨Or.inl trivial, Or.inl trivial⟩
      · by_cases hk2 : k2 = ""
        · rw [if_pos hk2]
          exact ⟨Or.inl rfl, Or.inl rfl⟩
        · rw [if_neg hk2]
          exact ⟨Or.inl rfl, Or.inr ⟨k2, _, _, hsuf, hk2, rfl⟩⟩
      · by_cases hk1 : k1 = ""
        · rw [if_pos hk1]
          exact ⟨Or.inl rfl, Or.inl rfl⟩
        · rw [if_neg hk1]
          exact ⟨Or.inr ⟨k1, _, _, hpre, hk1, rfl⟩, Or.inl rfl⟩
      · by_cases hk1 : k1 = "" <;> by_cases hk2 : k2 = ""
        · rw [if_pos hk1, if_pos hk2]
          exact ⟨Or.inl rfl, Or.inl rfl⟩
        · rw [if_pos hk1, if_neg hk2]
          exact ⟨Or.inl rfl, Or.inr ⟨k2, _, _, hsuf, hk2, rfl⟩⟩
        · rw [if_neg hk1, if_pos hk2]
          exact ⟨Or.inr ⟨k1, _, _, hpre, hk1, rfl⟩, Or.inl rfl⟩
        · rw [if_neg hk1, if_neg hk2]
          exact ⟨Or.inr ⟨k1, _, _, hpre, hk1, rfl⟩, Or.inr ⟨k2, _, _, hsuf, hk2, rfl⟩⟩

theorem mapHasIn_pairFold (pl : List (Nat × Nat)) (valid structured : List Link)
    (ms : List (String × List String) × List (String × List String)) (k x : String)
    (h : MapHasIn ms.1 k x) :
    MapHasIn ((pl.foldl (pairStep valid structured) ms)).1 k x := by
  induction pl generalizing ms with
  | nil => exact h
  | cons ij rest ih =>
    refine ih _ ?_
    rcases (pairStep_shape valid structured ms ij).1 with heq | ⟨k', c1, c2, _, _, heq⟩
    · rw [heq]; exact h
    · rw [heq]; exact mapHasIn_omapAdd _ _ _ _ _ (mapHasIn_omapAdd _ _ _ _ _ h)

theorem patternsFromMap_mem (valid : List Link) (t : String)
    (m : List (String × List String)) (k x : String) (h : MapHasIn m k x) :
    ∃ pat ∈ patternsFromMap valid t m, pat.type = t ∧ pat.pattern = k ∧ x ∈ pat.items := by
  obtain ⟨S, hS, hx⟩ := h
  refine ⟨⟨t, k, S, patCount valid S⟩, ?_, rfl, rfl, hx⟩
  apply List.mem_filterMap.mpr
  refine ⟨(k, S), alookup_mem _ _ _ hS, ?_⟩
  have hlen : 1 ≤ (k, S).2.length := List.length_pos.mpr (List.ne_nil_of_mem hx)
  rw [if_pos hlen]

theorem structuredDuplicates_mem (links : List Link) (c : String) :
    c ∈ structuredDuplicates links ↔
      0 < countContent (structuredLinks links) c ∧
        2 ≤ countContent (validLinks links) c := by
  unfold structuredDuplicates
  rw [osetOfList_mem, List.mem_filter]
  have hmem : c ∈ (structuredLinks links).map linkToString ↔
      0 < countContent (structuredLinks links) c := by
    simp [countContent, List.count_pos_iff]
  have hpred : (decide (2 ≤ ((alookup (exactCounts links) c).getD 0)) = true) ↔
      2 ≤ countContent (validLinks links) c := by
    rw [exactCounts_lookup]
    by_cases h0 : countContent (validLinks links) c = 0
    · rw [if_pos h0]
      simp [h0]
    · rw [if_neg h0]
      simp
  rw [hmem, hpred]

/-- The flattened content of the first child of the first structured entry
holding content `c` (the key that `findPatterns` forces into the prefix map). -/
def firstStructPrefix (links : List Link) (c : String) : String :=
  linkToString
    ((((structuredLinks links).filter (fun l => linkToString l == c)).headD default).values.headD
      default)

/-! ## Claim C5 -/

def linksC5 : List Link :=
  [compL [compL [leafL "a", leafL "b"], leafL "c"],
   compL [leafL "a", leafL "b", leafL "c"],
   compL [compL [compL []], leafL "x", leafL "y"],
   compL [compL [compL []], leafL "x", leafL "y"]]

/-- C5, counterexample: in `linksC5`, the content `"a b c"` is held by 2 valid
entries but only 1 structured entry, and `"x y"` is held by 2 structured
entries (whose first child flattens to nothing) — yet `findPatterns` returns
no pattern at all: neither the Exact pattern the claim demands for `"a b c"`
nor a Prefix pattern for `"x y"`. -/
theorem C5_counterexample :
    countContent (validLinks linksC5) "a b c" = 2 ∧
      countContent (structuredLinks linksC5) "a b c" = 1 ∧
      countContent (validLinks linksC5) "x y" = 2 ∧
      countContent (structuredLinks linksC5) "x y" = 2 ∧
      findPatterns linksC5 = [] := by decide

/-- C5, amended: a flattened content `c` held by ≥ 2 valid entries yields an
Exact pattern covering exactly `[c]` when *no* structured entry holds `c`;
when ≥ 2 structured entries hold `c` and the first child of the first such
entry has non-empty flattened content, a Prefix pattern keyed by that content
and covering `c` is produced.  (When exactly one structured entry holds `c`,
or the first child flattens to the empty string, neither pattern is
produced.) -/
theorem C5_theorem (links : List Link) (c : String)
    (hv : 2 ≤ countContent (validLinks links) c) :
    (countContent (structuredLinks links) c = 0 →
      (⟨"exact", c, [c], countContent (validLinks links) c⟩ : Pattern) ∈ findPatterns links) ∧
    (2 ≤ countContent (structuredLinks links) c → firstStructPrefix links c ≠ "" →
      ∃ pat ∈ findPatterns links, pat.type = "prefix" ∧
        pat.pattern = firstStructPrefix links c ∧ c ∈ pat.items) := by
  constructor
  · intro h0
    have hlk : alookup (exactCounts links) c = some (countContent (validLinks links) c) := by
      rw [exactCounts_lookup, if_neg (by omega)]
    have hnd : c ∉ structuredDuplicates links := by
      rw [structuredDuplicates_mem]
      rintro ⟨h1, _⟩
      omega
    have hex : (⟨"exact", c, [c], countContent (validLinks links) c⟩ : Pattern) ∈
        exactPatterns links := by
      apply List.mem_filterMap.mpr
      exact ⟨(c, countContent (validLinks links) c), alookup_mem _ _ _ hlk,
        by rw [if_pos ⟨hv, hnd⟩]⟩
    unfold findPatterns
    exact List.mem_append_left _ (List.mem_append_left _ hex)
  · intro h2 hpk
    have hdup : c ∈ structuredDuplicates links := by
      rw [structuredDuplicates_mem]
      exact ⟨by omega, hv⟩
    have hlen : 2 ≤ ((structuredLinks links).filter (fun l => linkToString l == c)).length := by
      rw [← countContent_eq_filter_length]
      exact h2
    have hne : (structuredLinks links).filter (fun l => linkToString l == c) ≠ [] := by
      intro hcn
      rw [hcn] at hlen
      simp at hlen
    have hv1 : 1 < (((structuredLinks links).filter (fun l => linkToString l == c)).headD
        default).values.length := by
      have hmem := headD_mem _ hne
      have hstr := List.mem_of_mem_filter hmem
      simp only [structuredLinks] at hstr
      have hb := List.of_mem_filter hstr
      simp only [isStructuredB, Bool.and_eq_true, decide_eq_true_eq] at hb
      exact hb.1.2
    have hpre : MapHasIn (preMap links) (firstStructPrefix links c) c := by
      obtain ⟨s, t, hst⟩ := List.append_of_mem hdup
      unfold preMap firstStructPrefix
      rw [hst, List.foldl_append, List.foldl_cons]
      exact mapHasIn_structFold t _ _ _ _
        (structStep_hasIn (structuredLinks links) _ c hlen hv1 (by
          unfold firstStructPrefix at hpk
          exact hpk))
    have hmap2 : MapHasIn (pairMaps links).1 (firstStructPrefix links c) c := by
      unfold pairMaps
      exact mapHasIn_pairFold _ _ _ _ _ _ hpre
    obtain ⟨pat, hp1, hp2, hp3, hp4⟩ :=
      patternsFromMap_mem (validLinks links) "prefix" _ _ _ hmap2
    refine ⟨pat, ?_, hp2, hp3, hp4⟩
    unfold findPatterns
    exact List.mem_append_left _ (List.mem_append_right _ hp1)

def linksC5w : List Link := [compL [leafL "a", leafL "b"], compL [leafL "a", leafL "b"]]

/-- C5, witness for the amended theorem at a concrete input (exact branch). -/
theorem C5_witness :
    2 ≤ countContent (validLinks linksC5w) "a b" ∧
      countContent (structuredLinks linksC5w) "a b" = 0 ∧
      (⟨"exact", "a b", ["a b"], countContent (validLinks linksC5w) "a b"⟩ : Pattern) ∈
        findPatterns linksC5w :=
  ⟨by decide, by decide, (C5_theorem linksC5w "a b" (by decide)).1 (by decide)⟩

/-! ## Split/join round trip (claim C6) -/

theorem strMk_data (s : String) : String.mk s.data = s := rfl

theorem splitWsGo_notWs_run (p : List Char) :
    ∀ (cs acc : List Char), (∀ c ∈ p, notWs c = true) →
      splitWsGo (p ++ cs) acc false = splitWsGo cs (p.reverse ++ acc) false := by
  induction p with
  | nil => intro cs acc _; simp
  | cons c p' ih =>
    intro cs acc hcl
    have hc : c.isWhitespace = false := by
      have := hcl c (List.mem_cons_self c p')
      simpa [notWs] using this
    simp only [List.cons_append, splitWsGo, hc, Bool.false_eq_true, if_false]
    rw [show (c :: p').reverse ++ acc = p'.reverse ++ (c :: acc) by simp]
    exact ih cs (c :: acc) (fun d hd => hcl d (List.mem_cons_of_mem c hd))

theorem splitWsGo_clean_single (p : List Char) (h : ∀ c ∈ p, notWs c = true) :
    splitWsGo p [] false = [p] := by
  have := splitWsGo_notWs_run p [] [] h
  simp only [List.append_nil] at this
  rw [this]
  simp [splitWsGo]

theorem splitWsGo_true_head (c : Char) (cs : List Char) (h : notWs c = true) :
    splitWsGo (c :: cs) [] true = splitWsGo (c :: cs) [] false := by
  have hc : c.isWhitespace = false := by simpa [notWs] using h
  simp only [splitWsGo, hc, Bool.false_eq_true, if_false]

theorem sepIntercalate_clean_split (ps : List (List Char)) :
    ps ≠ [] → (∀ p ∈ ps, p ≠ [] ∧ ∀ c ∈ p, notWs c = true) →
      splitWsGo (sepIntercalate ' ' ps) [] false = ps := by
  induction ps with
  | nil => intro h; exact absurd rfl h
  | cons p qs ih =>
    intro _ hcl
    cases qs with
    | nil =>
      simp only [sepIntercalate]
      exact splitWsGo_clean_single p (hcl p (by simp)).2
    | cons q qs' =>
      simp only [sepIntercalate]
      rw [splitWsGo_notWs_run p (' ' :: sepIntercalate ' ' (q :: qs')) []
        (hcl p (by simp)).2]
      have hsp : (' ').isWhitespace = true := by decide
      simp only [splitWsGo, hsp, if_true, Bool.false_eq_true, if_false, List.append_nil,
        List.reverse_reverse]
      have hq : ∃ r, sepIntercalate ' ' (q :: qs') = q ++ r := by
        cases qs' with
        | nil => exact ⟨[], by simp [sepIntercalate]⟩
        | cons r rs => exact ⟨_, rfl⟩
      obtain ⟨r, hr⟩ := hq
      have hqne : q ≠ [] := (hcl q (by simp)).1
      obtain ⟨qh, qt, hqe⟩ := List.exists_cons_of_ne_nil hqne
      have hhead : notWs qh = true := by
        have := (hcl q (by simp)).2
        exact this qh (by rw [hqe]; simp)
      have hform : sepIntercalate ' ' (q :: qs') = qh :: (qt ++ r) := by
        rw [hr, hqe]; simp
      rw [hform, splitWsGo_true_head qh (qt ++ r) hhead, ← hform]
      rw [ih (by simp) (fun x hx => hcl x (List.mem_cons_of_mem p hx))]

theorem jsSplitWs_joinSep (parts : List String) (hne : parts ≠ [])
    (hcl : ∀ p ∈ parts, p ≠ "" ∧ p.data.all notWs = true) :
    jsSplitWs (joinSep ' ' parts) = parts := by
  unfold jsSplitWs joinSep
  have h1 : splitWsGo (sepIntercalate ' ' (parts.map String.data)) [] false =
      parts.map String.data := by
    apply sepIntercalate_clean_split
    · intro hc
      exact hne (List.map_eq_nil_iff.mp hc)
    · intro p hp
      obtain ⟨s, hs, hsp⟩ := List.mem_map.mp hp
      subst hsp
      refine ⟨?_, ?_⟩
      · intro hd
        apply (hcl s hs).1
        cases s with
        | mk d =>
          have hd' : d = [] := hd
          subst hd'
          rfl
      · intro c hc
        exact List.all_eq_true.mp ((hcl s hs).2) c hc
  simp only [String.data]
  rw [h1]
  simp only [List.map_map]
  have : (fun cs => String.mk cs) ∘ String.data = id := by
    funext s
    simp [strMk_data]
  rw [this, List.map_id]

/-! ## `findCommonPattern` characterization (claim C6) -/

theorem whileCount_le (p : Nat → Bool) (b k : Nat) : whileCount p b k ≤ b := by
  induction b generalizing k with
  | zero => simp [whileCount]
  | succ b' ih =>
    simp only [whileCount]
    split
    · exact Nat.succ_le_succ (ih (k + 1))
    · exact Nat.zero_le _

theorem whileCount_spec (p : Nat → Bool) (b k : Nat) :
    ∀ i < whileCount p b k, p (k + i) = true := by
  induction b generalizing k with
  | zero => simp [whileCount]
  | succ b' ih =>
    simp only [whileCount]
    split
    · rename_i hp
      intro i hi
      cases i with
      | zero => simpa using hp
      | succ j =>
        have := ih (k + 1) j (by omega)
        simpa [Nat.add_comm, Nat.add_assoc, Nat.add_left_comm] using this
    · intro i hi
      simp at hi

theorem take_eq_take_of_getD (l1 l2 : List String) (m : Nat) (h1 : m ≤ l1.length)
    (h2 : m ≤ l2.length) (h : ∀ i < m, l1.getD i "" = l2.getD i "") :
    l1.take m = l2.take m := by
  apply List.ext_getElem
  · simp [Nat.min_eq_left h1, Nat.min_eq_left h2]
  · intro i hi1 hi2
    simp only [List.length_take] at hi1
    have him : i < m := lt_of_lt_of_le hi1 (Nat.min_le_left _ _)
    have hil1 : i < l1.length := by omega
    have hil2 : i < l2.length := by omega
    have := h i him
    rw [List.getD_eq_getElem?_getD, List.getElem?_eq_getElem hil1,
      List.getD_eq_getElem?_getD, List.getElem?_eq_getElem hil2] at this
    simpa [List.getElem_take] using this

theorem drop_eq_drop_of_getD (l1 l2 : List String) (m : Nat) (h1 : m ≤ l1.length)
    (h2 : m ≤ l2.length)
    (h : ∀ i < m, l1.getD (l1.length - 1 - i) "" = l2.getD (l2.length - 1 - i) "") :
    l1.drop (l1.length - m) = l2.drop (l2.length - m) := by
  apply List.ext_getElem
  · simp
    omega
  · intro j hj1 hj2
    simp only [List.length_drop] at hj1
    have hjm : j < m := by omega
    have := h (m - 1 - j) (by omega)
    rw [List.getD_eq_getElem?_getD,
      List.getElem?_eq_getElem (by omega : l1.length - 1 - (m - 1 - j) < l1.length),
      List.getD_eq_getElem?_getD,
      List.getElem?_eq_getElem (by omega : l2.length - 1 - (m - 1 - j) < l2.length)] at this
    have hval : l1[l1.length - 1 - (m - 1 - j)] = l2[l2.length - 1 - (m - 1 - j)] := by
      simpa using this
    rw [List.getElem_drop, List.getElem_drop]
    convert hval using 2 <;> omega

theorem findCommonPattern_prefix_eq (r1 r2 : List String) :
    findCommonPattern r1 r2 "prefix" =
      (if 0 < whileCount (fun k => r1.getD k "" == r2.getD k "")
          (min (r1.length - 1) (r2.length - 1)) 0 then
        some (joinSep ' ' (r1.take (whileCount (fun k => r1.getD k "" == r2.getD k "")
          (min (r1.length - 1) (r2.length - 1)) 0)))
      else none) := rfl

theorem findCommonPattern_suffix_eq (r1 r2 : List String) :
    findCommonPattern r1 r2 "suffix" =
      (if 0 < whileCount (fun k => r1.getD (r1.length - 1 - k) "" == r2.getD (r2.length - 1 - k) "")
          (min (r1.length - 1) (r2.length - 1)) 0 then
        some (joinSep ' ' (r1.drop (r1.length -
          whileCount (fun k => r1.getD (r1.length - 1 - k) "" == r2.getD (r2.length - 1 - k) "")
            (min (r1.length - 1) (r2.length - 1)) 0)))
      else none) := rfl

theorem findCommonPattern_prefix_spec (r1 r2 : List String) (k : String)
    (h : findCommonPattern r1 r2 "prefix" = some k) :
    ∃ m, 1 ≤ m ∧ m ≤ min (r1.length - 1) (r2.length - 1) ∧
      r1.take m = r2.take m ∧ k = joinSep ' ' (r1.take m) := by
  rw [findCommonPattern_prefix_eq] at h
  split at h
  · rename_i hm
    refine ⟨_, hm, whileCount_le _ _ _, ?_, (Option.some.inj h).symm⟩
    apply take_eq_take_of_getD
    · have := whileCount_le
        (fun k => r1.getD k "" == r2.getD k "") (min (r1.length - 1) (r2.length - 1)) 0
      omega
    · have := whileCount_le
        (fun k => r1.getD k "" == r2.getD k "") (min (r1.length - 1) (r2.length - 1)) 0
      omega
    · intro i hi
      have := whileCount_spec
        (fun k => r1.getD k "" == r2.getD k "") (min (r1.length - 1) (r2.length - 1)) 0 i hi
      simpa using this
  · simp at h

theorem findCommonPattern_suffix_spec (r1 r2 : List String) (k : String)
    (h : findCommonPattern r1 r2 "suffix" = some k) :
    ∃ m, 1 ≤ m ∧ m ≤ min (r1.length - 1) (r2.length - 1) ∧
      r1.drop (r1.length - m) = r2.drop (r2.length - m) ∧
      k = joinSep ' ' (r1.drop (r1.length - m)) := by
  rw [findCommonPattern_suffix_eq] at h
  split at h
  · rename_i hm
    refine ⟨_, hm, whileCount_le _ _ _, ?_, (Option.some.inj h).symm⟩
    apply drop_eq_drop_of_getD
    · have := whileCount_le
        (fun k => r1.getD (r1.length - 1 - k) "" == r2.getD (r2.length - 1 - k) "")
        (min (r1.length - 1) (r2.length - 1)) 0
      omega
    · have := whileCount_le
        (fun k => r1.getD (r1.length - 1 - k) "" == r2.getD (r2.length - 1 - k) "")
        (min (r1.length - 1) (r2.length - 1)) 0
      omega
    · intro i hi
      have := whileCount_spec
        (fun k => r1.getD (r1.length - 1 - k) "" == r2.getD (r2.length - 1 - k) "")
        (min (r1.length - 1) (r2.length - 1)) 0 i hi
      simpa using this
  · simp at h

/-! ## Clean links, flattening, and the pattern invariant (claim C6) -/

mutual
/-- All identifiers in the tree are free of whitespace characters. -/
def cleanLink : Link → Bool
  | .mk i vs => (match i with | none => true | some s => s.data.all notWs) && cleanLinks vs
def cleanLinks : List Link → Bool
  | [] => true
  | v :: vs => cleanLink v && cleanLinks vs
end

/-- All identifiers of all links are free of whitespace. -/
def CleanLinks (links : List Link) : Prop := cleanLinks links = true

mutual
theorem flattenLink_clean : ∀ l : Link, cleanLink l = true →
    ∀ p ∈ flattenLink l, p ≠ "" ∧ p.data.all notWs = true
  | .mk i [], hc => by
    intro p hp
    simp only [flattenLink] at hp
    split at hp
    · rename_i ht
      rcases List.mem_singleton.mp hp with rfl
      cases i with
      | none => simp [isTruthy] at ht
      | some s =>
        simp only [isTruthy, decide_eq_true_eq] at ht
        simp only [cleanLink, Bool.and_eq_true] at hc
        exact ⟨by simpa using ht, hc.1⟩
    · simp at hp
  | .mk i (v :: vs), hc => by
    intro p hp
    simp only [flattenLink] at hp
    simp only [cleanLink, Bool.and_eq_true, cleanLinks] at hc
    rcases List.mem_append.mp hp with hp | hp
    · exact flattenLink_clean v (by
        have := hc.2
        simp only [Bool.and_eq_true] at this
        exact this.1) p hp
    · exact flattenLinks_clean vs (by
        have := hc.2
        simp only [Bool.and_eq_true] at this
        exact this.2) p hp
theorem flattenLinks_clean : ∀ ls : List Link, cleanLinks ls = true →
    ∀ p ∈ flattenLinks ls, p ≠ "" ∧ p.data.all notWs = true
  | [], _ => by intro p hp; simp [flattenLinks] at hp
  | v :: vs, hc => by
    intro p hp
    simp only [flattenLinks] at hp
    simp only [cleanLinks, Bool.and_eq_true] at hc
    rcases List.mem_append.mp hp with hp | hp
    · exact flattenLink_clean v hc.1 p hp
    · exact flattenLinks_clean vs hc.2 p hp
end

theorem cleanLinks_mem (links : List Link) (l : Link) (hcl : CleanLinks links)
    (hl : l ∈ links) : cleanLink l = true := by
  induction links with
  | nil => simp at hl
  | cons a rest ih =>
    simp only [CleanLinks, cleanLinks, Bool.and_eq_true] at hcl
    rcases List.mem_cons.mp hl with rfl | hl
    · exact hcl.1
    · exact ih hcl.2 hl

theorem validLinks_sub (links : List Link) : ∀ l ∈ validLinks links, l ∈ links :=
  fun l hl => List.mem_of_mem_filter hl

theorem structuredLinks_sub (links : List Link) : ∀ l ∈ structuredLinks links, l ∈ links :=
  fun l hl => validLinks_sub links l (List.mem_of_mem_filter hl)

theorem validLinks_tokens (links : List Link) (l : Link) (hl : l ∈ validLinks links) :
    2 ≤ (jsSplitWs (linkToString l)).length := by
  have := List.of_mem_filter hl
  simpa using this

/-- Non-empty token-prefix (possibly the full item). -/
def TokPre (k it : String) : Prop :=
  ∃ m, 1 ≤ m ∧ m ≤ (jsSplitWs it).length ∧ k = joinSep ' ' ((jsSplitWs it).take m)

/-- Non-empty strict (non-full) token-suffix. -/
def TokSufStrict (k it : String) : Prop :=
  ∃ m, 1 ≤ m ∧ m < (jsSplitWs it).length ∧
    k = joinSep ' ' ((jsSplitWs it).drop ((jsSplitWs it).length - m))

/-- Every binding of the map relates its key to each of its items by `R`, and
every item has at least two tokens. -/
def MapInv (R : String → String → Prop) (m : List (String × List String)) : Prop :=
  ∀ kS ∈ m, ∀ it ∈ kS.2, R kS.1 it ∧ 2 ≤ (jsSplitWs it).length

theorem mapInv_nil (R : String → String → Prop) : MapInv R [] := by
  intro kS h
  simp at h

theorem mapInv_omapAdd (R : String → String → Prop) (m : List (String × List String))
    (k x : String) (hm : MapInv R m) (hx : R k x) (hv : 2 ≤ (jsSplitWs x).length) :
    MapInv R (omapAdd m k x) := by
  induction m with
  | nil =>
    intro kS hkS it hit
    simp only [omapAdd, List.mem_singleton] at hkS
    subst hkS
    rcases List.mem_singleton.mp hit with rfl
    exact ⟨hx, hv⟩
  | cons kv rest ih =>
    obtain ⟨k0, s⟩ := kv
    intro kS hkS it hit
    simp only [omapAdd] at hkS
    split at hkS
    · rename_i hk
      subst hk
      rcases List.mem_cons.mp hkS with rfl | hkS
      · rcases (osetAdd_mem_iff _ _ _).mp hit with hit | rfl
        · exact hm (k0, s) (List.mem_cons_self _ _) it hit
        · exact ⟨hx, hv⟩
      · exact hm kS (List.mem_cons_of_mem _ hkS) it hit
    · rcases List.mem_cons.mp hkS with rfl | hkS
      · exact hm (k0, s) (List.mem_cons_self _ _) it hit
      · exact ih (fun kS' h' => hm kS' (List.mem_cons_of_mem _ h')) kS hkS it hit

theorem mapInv_addFold (R : String → String → Prop) (ls : List Link) (pk : String)
    (m : List (String × List String)) (hm : MapInv R m)
    (h : ∀ l ∈ ls, R pk (linkToString l) ∧ 2 ≤ (jsSplitWs (linkToString l)).length) :
    MapInv R (ls.foldl (fun m' l => omapAdd m' pk (linkToString l)) m) := by
  induction ls generalizing m with
  | nil => exact hm
  | cons l rest ih =>
    refine ih _ ?_ (fun l' hl' => h l' (List.mem_cons_of_mem _ hl'))
    exact mapInv_omapAdd R m pk (linkToString l) hm
      (h l (List.mem_cons_self _ _)).1 (h l (List.mem_cons_self _ _)).2

theorem tokPre_of_fcp (c1 c2 k : String)
    (h : findCommonPattern (jsSplitWs c1) (jsSplitWs c2) "prefix" = some k) :
    (TokPre k c1 ∧ 2 ≤ (jsSplitWs c1).length) ∧
      (TokPre k c2 ∧ 2 ≤ (jsSplitWs c2).length) := by
  obtain ⟨m, hm1, hm2, hteq, hk⟩ := findCommonPattern_prefix_spec _ _ _ h
  have hl1 : 2 ≤ (jsSplitWs c1).length := by omega
  have hl2 : 2 ≤ (jsSplitWs c2).length := by omega
  refine ⟨⟨⟨m, hm1, by omega, hk⟩, hl1⟩, ⟨⟨m, hm1, by omega, ?_⟩, hl2⟩⟩
  rw [hk, hteq]

theorem tokSuf_of_fcp (c1 c2 k : String)
    (h : findCommonPattern (jsSplitWs c1) (jsSplitWs c2) "suffix" = some k) :
    (TokSufStrict k c1 ∧ 2 ≤ (jsSplitWs c1).length) ∧
      (TokSufStrict k c2 ∧ 2 ≤ (jsSplitWs c2).length) := by
  obtain ⟨m, hm1, hm2, hteq, hk⟩ := findCommonPattern_suffix_spec _ _ _ h
  have hl1 : 2 ≤ (jsSplitWs c1).length := by omega
  have hl2 : 2 ≤ (jsSplitWs c2).length := by omega
  refine ⟨⟨⟨m, hm1, by omega, hk⟩, hl1⟩, ⟨⟨m, hm1, by omega, ?_⟩, hl2⟩⟩
  rw [hk, hteq]

theorem mapInv_pairFold_pre (pl : List (Nat × Nat)) (valid structured : List Link)
    (ms : List (String × List String) × List (String × List String))
    (h1 : MapInv TokPre ms.1) :
    MapInv TokPre ((pl.foldl (pairStep valid structured) ms)).1 := by
  induction pl generalizing ms with
  | nil => exact h1
  | cons ij rest ih =>
    refine ih _ ?_
    rcases (pairStep_shape valid structured ms ij).1 with heq | ⟨k, c1, c2, hfc, _, heq⟩
    · rw [heq]; exact h1
    · rw [heq]
      obtain ⟨⟨hp1, hv1⟩, ⟨hp2, hv2⟩⟩ := tokPre_of_fcp c1 c2 k hfc
      exact mapInv_omapAdd _ _ _ _ (mapInv_omapAdd _ _ _ _ h1 hp1 hv1) hp2 hv2

theorem mapInv_pairFold_suf (pl : List (Nat × Nat)) (valid structured : List Link)
    (ms : List (String × List String) × List (String × List String))
    (h2 : MapInv TokSufStrict ms.2) :
    MapInv TokSufStrict ((pl.foldl (pairStep valid structured) ms)).2 := by
  induction pl generalizing ms with
  | nil => exact h2
  | cons ij rest ih =>
    refine ih _ ?_
    rcases (pairStep_shape valid structured ms ij).2 with heq | ⟨k, c1, c2, hfc, _, heq⟩
    · rw [heq]; exact h2
    · rw [heq]
      obtain ⟨⟨hp1, hv1⟩, ⟨hp2, hv2⟩⟩ := tokSuf_of_fcp c1 c2 k hfc
      exact mapInv_omapAdd _ _ _ _ (mapInv_omapAdd _ _ _ _ h2 hp1 hv1) hp2 hv2

theorem flattenLink_of_values (i : Option String) (v0 : Link) (vs' : List Link) :
    flattenLinks (v0 :: vs') = flattenLink v0 ++ flattenLinks vs' := rfl

theorem linkToString_of_values (i : Option String) (v0 : Link) (vs' : List Link) :
    linkToString (.mk i (v0 :: vs')) = joinSep ' ' (flattenLinks (v0 :: vs')) := rfl

theorem linkToString_firstChild (v0 : Link) (h : v0.values ≠ []) :
    linkToString v0 = joinSep ' ' (flattenLink v0) := by
  cases v0 with
  | mk i0 ws =>
    cases ws with
    | nil => exact absurd rfl h
    | cons w ws' => rfl

theorem jsSplitWs_empty : jsSplitWs "" = [""] := rfl

theorem mapInv_structStep_pre (links : List Link) (hcl : CleanLinks links)
    (m : List (String × List String)) (c : String) (hm : MapInv TokPre m) :
    MapInv TokPre (structStep (structuredLinks links) m c) := by
  simp only [structStep]
  split
  · rename_i hguard
    split
    · exact hm
    · rename_i hpk
      apply mapInv_addFold TokPre _ _ _ hm
      have hne : (structuredLinks links).filter (fun l => linkToString l == c) ≠ [] := by
        intro hcn
        rw [hcn] at hguard
        simp at hguard
      set matching := (structuredLinks links).filter (fun l => linkToString l == c) with hmdef
      set head := matching.headD default with hhdef
      have hhead : head ∈ matching := headD_mem _ hne
      have hheadc : linkToString head = c := by
        have := List.of_mem_filter hhead
        simpa using this
      have hstr : head ∈ structuredLinks links := List.mem_of_mem_filter hhead
      have hvalid : head ∈ validLinks links := by
        have h' := hstr
        simp only [structuredLinks] at h'
        exact List.mem_of_mem_filter h'
      have hclean : cleanLink head = true :=
        cleanLinks_mem links head hcl (structuredLinks_sub links head hstr)
      have htok : 2 ≤ (jsSplitWs c).length := by
        rw [← hheadc]
        exact validLinks_tokens links head hvalid
      have hsb : isStructuredB head = true := by
        have h' := hstr
        simp only [structuredLinks] at h'
        exact List.of_mem_filter h'
      simp only [isStructuredB, Bool.and_eq_true, decide_eq_true_eq] at hsb
      -- decompose head
      obtain ⟨i, vs⟩ := head
      have hvs : ∃ v0 vs', vs = v0 :: vs' := by
        cases vs with
        | nil => simp [Link.values] at hsb
        | cons v0 vs' => exact ⟨v0, vs', rfl⟩
      obtain ⟨v0, vs', rfl⟩ := hvs
      have hv0 : (Link.mk i (v0 :: vs')).values.headD default = v0 := rfl
      have hv0vals : v0.values ≠ [] := by
        intro hcn
        have := hsb.2
        rw [hv0, hcn] at this
        simp at this
      -- content and parts
      have hc_eq : c = joinSep ' ' (flattenLinks (v0 :: vs')) := by
        rw [← hheadc]
        rfl
      have hparts_clean : ∀ p ∈ flattenLinks (v0 :: vs'), p ≠ "" ∧ p.data.all notWs = true := by
        apply flattenLinks_clean
        simp only [cleanLink, Bool.and_eq_true] at hclean
        exact hclean.2
      have hparts_ne : flattenLinks (v0 :: vs') ≠ [] := by
        intro hcn
        rw [hcn] at hc_eq
        have : c = "" := hc_eq
        rw [this, jsSplitWs_empty] at htok
        simp at htok
      have hRT : jsSplitWs c = flattenLinks (v0 :: vs') := by
        rw [hc_eq]
        exact jsSplitWs_joinSep _ hparts_ne hparts_clean
      -- the prefix key
      have hpk_eq : linkToString ((Link.mk i (v0 :: vs')).values.headD default) =
          joinSep ' ' (flattenLink v0) := by
        rw [hv0]
        exact linkToString_firstChild v0 hv0vals
      have hP1_ne : flattenLink v0 ≠ [] := by
        intro hcn
        apply hpk
        rw [hpk_eq, hcn]
        rfl
      have hTok : TokPre (linkToString ((Link.mk i (v0 :: vs')).values.headD default)) c := by
        refine ⟨(flattenLink v0).length, ?_, ?_, ?_⟩
        · exact List.length_pos.mpr hP1_ne
        · rw [hRT, flattenLink_of_values i v0 vs']
          simp
        · rw [hpk_eq, hRT, flattenLink_of_values i v0 vs', List.take_left]
      intro l hl
      have hlc : linkToString l = c := by
        have := List.of_mem_filter hl
        simpa using this
      rw [hlc]
      exact ⟨hTok, htok⟩
  · exact hm

theorem mapInv_structFold_pre (links : List Link) (hcl : CleanLinks links)
    (ds : List String) (m : List (String × List String)) (hm : MapInv TokPre m) :
    MapInv TokPre (ds.foldl (structStep (structuredLinks links)) m) := by
  induction ds generalizing m with
  | nil => exact hm
  | cons d rest ih => exact ih _ (mapInv_structStep_pre links hcl m d hm)

theorem bump_keys (m : List (String × Nat)) (k0 k : String) (n : Nat)
    (h : (k, n) ∈ bump m k0) : (∃ n', (k, n') ∈ m) ∨ k = k0 := by
  induction m with
  | nil =>
    simp only [bump, List.mem_singleton, Prod.mk.injEq] at h
    exact Or.inr h.1
  | cons kv rest ih =>
    obtain ⟨k', n'⟩ := kv
    simp only [bump] at h
    split at h
    · rcases List.mem_cons.mp h with h | h
      · obtain ⟨h1, _⟩ := Prod.mk.injEq _ _ _ _ ▸ h
        exact Or.inl ⟨n', by rw [h1]; exact List.mem_cons_self _ _⟩
      · exact Or.inl ⟨n, List.mem_cons_of_mem _ h⟩
    · rcases List.mem_cons.mp h with h | h
      · obtain ⟨h1, _⟩ := Prod.mk.injEq _ _ _ _ ▸ h
        exact Or.inl ⟨n', by rw [h1]; exact List.mem_cons_self _ _⟩
      · rcases ih h with ⟨n'', hmem⟩ | heq
        · exact Or.inl ⟨n'', List.mem_cons_of_mem _ hmem⟩
        · exact Or.inr heq

theorem countfold_keys (ls : List Link) (m : List (String × Nat)) (k : String) (n : Nat)
    (h : (k, n) ∈ ls.foldl (fun m' l => bump m' (linkToString l)) m) :
    (∃ n', (k, n') ∈ m) ∨ ∃ l ∈ ls, linkToString l = k := by
  induction ls generalizing m with
  | nil => exact Or.inl ⟨n, h⟩
  | cons l rest ih =>
    simp only [List.foldl_cons] at h
    rcases ih _ h with ⟨n', hmem⟩ | ⟨l', hl', heq⟩
    · rcases bump_keys m (linkToString l) k n' hmem with hmem' | heq
      · exact Or.inl hmem'
      · exact Or.inr ⟨l, List.mem_cons_self _ _, heq.symm⟩
    · exact Or.inr ⟨l', List.mem_cons_of_mem _ hl', heq⟩

theorem patternsFromMap_char (valid : List Link) (t : String)
    (m : List (String × List String)) (pat : Pattern) (h : pat ∈ patternsFromMap valid t m) :
    ∃ kS ∈ m, pat = ⟨t, kS.1, kS.2, patCount valid kS.2⟩ := by
  obtain ⟨kS, hm, heq⟩ := List.mem_filterMap.mp h
  split at heq
  · exact ⟨kS, hm, (Option.some.inj heq).symm⟩
  · simp at heq

/-! ## Claim C6 -/

def linksC6 : List Link :=
  [compL [compL [leafL "x "], leafL "y"], compL [compL [leafL "x "], leafL "y"],
   compL [compL [leafL "a", leafL "b"], compL []],
   compL [compL [leafL "a", leafL "b"], compL []]]

/-- C6, counterexample: `findPatterns linksC6` returns the Prefix pattern
`"x "` covering the item `"x  y"` — whose token sequence `["x", ""]` is not a
token-prefix of the item's tokens `["x", "y"]` at all (no `take` of the item's
tokens joins back to `"x "`) — and the Prefix pattern `"a b"` covering the
item `"a b"`, which is the *full* item (no strict prefix of its tokens joins
to `"a b"`). -/
theorem C6_counterexample :
    findPatterns linksC6 =
      [⟨"prefix", "x ", ["x  y"], 2⟩, ⟨"prefix", "a b", ["a b"], 2⟩] ∧
      (∀ m, m ≤ (jsSplitWs "x  y").length →
        ("x " : String) ≠ joinSep ' ' ((jsSplitWs "x  y").take m)) ∧
      (∀ m, m < (jsSplitWs "a b").length →
        ("a b" : String) ≠ joinSep ' ' ((jsSplitWs "a b").take m)) := by
  refine ⟨by decide, ?_, ?_⟩
  · intro m hm
    have hb : (jsSplitWs "x  y").length = 2 := by decide
    rw [hb] at hm
    interval_cases m <;> decide
  · intro m hm
    have hb : (jsSplitWs "a b").length = 2 := by decide
    rw [hb] at hm
    interval_cases m <;> decide

/-- C6, amended: for inputs whose identifiers contain no whitespace, every
pattern of `findPatterns` satisfies: Exact patterns cover exactly their own
(≥ 2-token) pattern string; Prefix patterns' token sequences are non-empty
token-prefixes of every covered item (possibly the full item, in the
structured-duplicates case); Suffix patterns' token sequences are non-empty
*strict* token-suffixes of every covered item; every covered item has at
least 2 tokens. -/
theorem C6_theorem (links : List Link) (hcl : CleanLinks links) :
    ∀ pat ∈ findPatterns links,
      (pat.type = "exact" ∧ pat.items = [pat.pattern] ∧
          2 ≤ (jsSplitWs pat.pattern).length) ∨
      (pat.type = "prefix" ∧ ∀ it ∈ pat.items,
        TokPre pat.pattern it ∧ 2 ≤ (jsSplitWs it).length) ∨
      (pat.type = "suffix" ∧ ∀ it ∈ pat.items,
        TokSufStrict pat.pattern it ∧ 2 ≤ (jsSplitWs it).length) := by
  intro pat hp
  unfold findPatterns at hp
  rcases List.mem_append.mp hp with hp | hp
  · rcases List.mem_append.mp hp with hp | hp
    · -- exact patterns
      left
      obtain ⟨kv, hmem, heq⟩ := List.mem_filterMap.mp hp
      obtain ⟨k, n⟩ := kv
      split at heq
      · have hpat : pat = ⟨"exact", k, [k], n⟩ := (Option.some.inj heq).symm
        subst hpat
        refine ⟨rfl, rfl, ?_⟩
        rcases countfold_keys (validLinks links) [] k n hmem with ⟨n', hmem'⟩ | ⟨l, hl, heq'⟩
        · simp at hmem'
        · rw [← heq']
          exact validLinks_tokens links l hl
      · simp at heq
    · -- prefix patterns
      right; left
      obtain ⟨kS, hmem, hpat⟩ := patternsFromMap_char _ _ _ _ hp
      subst hpat
      have hinv : MapInv TokPre (pairMaps links).1 := by
        unfold pairMaps
        apply mapInv_pairFold_pre
        unfold preMap
        exact mapInv_structFold_pre links hcl _ _ (mapInv_nil _)
      exact ⟨rfl, fun it hit => hinv kS hmem it hit⟩
  · -- suffix patterns
    right; right
    obtain ⟨kS, hmem, hpat⟩ := patternsFromMap_char _ _ _ _ hp
    subst hpat
    have hinv : MapInv TokSufStrict (pairMaps links).2 := by
      unfold pairMaps
      apply mapInv_pairFold_suf
      exact mapInv_nil _
    exact ⟨rfl, fun it hit => hinv kS hmem it hit⟩

def linksC6w : List Link :=
  [compL [leafL "a", leafL "b", leafL "c"], compL [leafL "a", leafL "b", leafL "d"]]

/-- C6, witness for the amended theorem at a concrete clean input. -/
theorem C6_witness :
    CleanLinks linksC6w ∧
      ∀ pat ∈ findPatterns linksC6w,
        (pat.type = "exact" ∧ pat.items = [pat.pattern] ∧
            2 ≤ (jsSplitWs pat.pattern).length) ∨
        (pat.type = "prefix" ∧ ∀ it ∈ pat.items,
          TokPre pat.pattern it ∧ 2 ≤ (jsSplitWs it).length) ∨
        (pat.type = "suffix" ∧ ∀ it ∈ pat.items,
          TokSufStrict pat.pattern it ∧ 2 ≤ (jsSplitWs it).length) :=
  ⟨show cleanLinks linksC6w = true by decide,
    C6_theorem linksC6w (show cleanLinks linksC6w = true by decide)⟩
